import Mathlib

/-!
Verification of the relay reactive graph-data client core against its
specification.

The repository ships the type declarations of the runtime core
(`RelayStoreTypes`: `RecordSource`, `Store`, `Environment`, …) and the
code-generation file writer (`RelayFileWriter`).  The implementations of the
runtime core (record source, storage-key encoder, normalizer, reader,
publish queue, store) are not part of the shipped sources, so they are
modelled here from the specification (spec.md §3, §4, §8); each such
definition carries a doc comment starting with `Modelled from the spec:`.
`RelayFileWriter.js` is shipped, and its relevant fragments are embedded
directly from the source.

Conventions: machine maps (JS objects) are embedded as association lists
with unique keys; JS `undefined` is `Option.none`; fallible code returns
`Except`/is modelled with explicit error results.
-/

/-! ## Association-list helpers (embedding of JS object maps) -/

/-- Lookup in an association list (JS object property read). -/
def alookup {K V : Type} [DecidableEq K] : List (K × V) → K → Option V
  | [], _ => none
  | (k0, v0) :: t, k => if k0 = k then some v0 else alookup t k

/-- Set a key in an association list (JS object property write): update in
place if present, append otherwise. -/
def aset {K V : Type} [DecidableEq K] : List (K × V) → K → V → List (K × V)
  | [], k, v => [(k, v)]
  | (k0, v0) :: t, k, v =>
      if k0 = k then (k0, v) :: t else (k0, v0) :: aset t k v

theorem alookup_aset_self {K V : Type} [DecidableEq K]
    (l : List (K × V)) (k : K) (v : V) : alookup (aset l k v) k = some v := by
  induction l with
  | nil => simp [aset, alookup]
  | cons p t ih =>
      obtain ⟨k0, v0⟩ := p
      by_cases h : k0 = k
      · simp [aset, alookup, h]
      · simp [aset, alookup, h, ih]

theorem alookup_aset_ne {K V : Type} [DecidableEq K]
    (l : List (K × V)) (k k2 : K) (v : V) (h : k2 ≠ k) :
    alookup (aset l k v) k2 = alookup l k2 := by
  induction l with
  | nil => simp [aset, alookup, Ne.symm h]
  | cons p t ih =>
      obtain ⟨k0, v0⟩ := p
      by_cases hk : k0 = k
      · subst hk
        simp [aset, alookup, Ne.symm h]
      · by_cases hk2 : k0 = k2
        · simp [aset, alookup, hk, hk2, h]
        · simp [aset, alookup, hk, hk2, ih]

theorem aset_eq_of_alookup {K V : Type} [DecidableEq K]
    (l : List (K × V)) (k : K) (v : V) (h : alookup l k = some v) :
    aset l k v = l := by
  induction l with
  | nil => simp [alookup] at h
  | cons p t ih =>
      obtain ⟨k0, v0⟩ := p
      by_cases hk : k0 = k
      · simp [alookup, hk] at h
        simp [aset, hk, h]
      · simp [alookup, hk] at h
        simp [aset, hk, ih h]

theorem alookup_perm_of_nodup_keys {K V : Type} [DecidableEq K]
    {l1 l2 : List (K × V)} (hp : l1.Perm l2)
    (hnd : (l1.map Prod.fst).Nodup) (k : K) :
    alookup l1 k = alookup l2 k := by
  induction hp with
  | nil => rfl
  | cons x l ih =>
      obtain ⟨k0, v0⟩ := x
      by_cases h : k0 = k
      · simp [alookup, h]
      · simp only [List.map_cons, List.nodup_cons] at hnd
        simp [alookup, h, ih hnd.2]
  | swap x y l =>
      obtain ⟨kx, vx⟩ := x
      obtain ⟨ky, vy⟩ := y
      simp only [List.map_cons, List.nodup_cons, List.mem_cons] at hnd
      have hxy : ky ≠ kx := fun e => hnd.1 (Or.inl e)
      by_cases hx : kx = k
      · subst hx
        simp [alookup, hxy]
      · by_cases hy : ky = k
        · simp [alookup, hx, hy]
        · simp [alookup, hx, hy]
  | trans h12 h23 ih12 ih23 =>
      have hnd2 : _ := (h12.map Prod.fst).nodup_iff.mp hnd
      exact (ih12 hnd).trans (ih23 hnd2)

/-! ## JSON values

Modelled from the spec: §3.1 FieldArguments values are "JSON-serializable"
(scalars, nulls, arrays, nested objects); response payloads (§4.3) are JSON
trees.  Numbers are embedded as integers (no claim depends on float
behaviour). -/

inductive JsonValue where
  | null : JsonValue
  | bool (b : Bool) : JsonValue
  | num (n : Int) : JsonValue
  | str (s : String) : JsonValue
  | arr (elems : List JsonValue) : JsonValue
  | obj (fields : List (String × JsonValue)) : JsonValue
deriving Repr

/-- Structural induction principle for the nested inductive `JsonValue`. -/
theorem JsonValue.induct (P : JsonValue → Prop)
    (hnull : P .null) (hbool : ∀ b, P (.bool b)) (hnum : ∀ n, P (.num n))
    (hstr : ∀ s, P (.str s))
    (harr : ∀ xs, (∀ x ∈ xs, P x) → P (.arr xs))
    (hobj : ∀ fs, (∀ p ∈ fs, P (Prod.snd p)) → P (.obj fs)) : ∀ v, P v
  | .null => hnull
  | .bool b => hbool b
  | .num n => hnum n
  | .str s => hstr s
  | .arr xs => harr xs (fun x hx =>
      have : sizeOf x < 1 + sizeOf xs := by
        have := List.sizeOf_lt_of_mem hx
        omega
      JsonValue.induct P hnull hbool hnum hstr harr hobj x)
  | .obj fs => hobj fs (fun p hp =>
      have : sizeOf p.2 < 1 + sizeOf fs := by
        have h1 := List.sizeOf_lt_of_mem hp
        have h2 : sizeOf p.2 < sizeOf p := by
          obtain ⟨a, b⟩ := p
          simp only [Prod.mk.sizeOf_spec]
          omega
        omega
      JsonValue.induct P hnull hbool hnum hstr harr hobj p.2)
termination_by v => sizeOf v

mutual
def JsonValue.beq : JsonValue → JsonValue → Bool
  | .null, .null => true
  | .bool a, .bool b => a == b
  | .num a, .num b => a == b
  | .str a, .str b => a == b
  | .arr xs, .arr ys => JsonValue.beqList xs ys
  | .obj fs, .obj gs => JsonValue.beqObj fs gs
  | _, _ => false
def JsonValue.beqList : List JsonValue → List JsonValue → Bool
  | [], [] => true
  | x :: xs, y :: ys => JsonValue.beq x y && JsonValue.beqList xs ys
  | _, _ => false
def JsonValue.beqObj : List (String × JsonValue) → List (String × JsonValue) → Bool
  | [], [] => true
  | (k, v) :: fs, (k2, v2) :: gs =>
      k == k2 && JsonValue.beq v v2 && JsonValue.beqObj fs gs
  | _, _ => false
end

theorem JsonValue.beq_refl : ∀ v, JsonValue.beq v v = true := by
  intro v
  induction v using JsonValue.induct with
  | hnull => rfl
  | hbool b => simp [JsonValue.beq]
  | hnum n => simp [JsonValue.beq]
  | hstr s => simp [JsonValue.beq]
  | harr xs ih =>
      simp only [JsonValue.beq]
      induction xs with
      | nil => rfl
      | cons x rest ihl =>
          simp only [JsonValue.beqList, Bool.and_eq_true]
          exact ⟨ih x (by simp), ihl (fun y hy => ih y (by simp [hy]))⟩
  | hobj fs ih =>
      simp only [JsonValue.beq]
      induction fs with
      | nil => rfl
      | cons p rest ihl =>
          obtain ⟨k, v⟩ := p
          simp only [JsonValue.beqObj, Bool.and_eq_true, beq_self_eq_true, true_and]
          exact ⟨ih ⟨k, v⟩ (by simp), ihl (fun q hq => ih q (by simp [hq]))⟩

theorem JsonValue.eq_of_beq : ∀ a, ∀ b, JsonValue.beq a b = true → a = b := by
  intro a
  induction a using JsonValue.induct with
  | hnull => intro b h; cases b <;> simp_all [JsonValue.beq]
  | hbool x => intro b h; cases b <;> simp_all [JsonValue.beq]
  | hnum x => intro b h; cases b <;> simp_all [JsonValue.beq]
  | hstr x => intro b h; cases b <;> simp_all [JsonValue.beq]
  | harr xs ih =>
      intro b h
      cases b with
      | arr ys =>
          congr 1
          induction xs generalizing ys with
          | nil => cases ys with
            | nil => rfl
            | cons y ys => simp [JsonValue.beq, JsonValue.beqList] at h
          | cons x rest ihl =>
              cases ys with
              | nil => simp [JsonValue.beq, JsonValue.beqList] at h
              | cons y ys =>
                  simp only [JsonValue.beq, JsonValue.beqList, Bool.and_eq_true] at h
                  have h1 := ih x (by simp) y h.1
                  have h2 := ihl (fun z hz => ih z (by simp [hz])) ys (by
                    simp [JsonValue.beq, h.2])
                  subst h1
                  simp only [List.cons.injEq, true_and]
                  exact h2
      | null => simp [JsonValue.beq] at h
      | bool b => simp [JsonValue.beq] at h
      | num n => simp [JsonValue.beq] at h
      | str s => simp [JsonValue.beq] at h
      | obj fs => simp [JsonValue.beq] at h
  | hobj fs ih =>
      intro b h
      cases b with
      | obj gs =>
          congr 1
          induction fs generalizing gs with
          | nil => cases gs with
            | nil => rfl
            | cons g gs => simp [JsonValue.beq, JsonValue.beqObj] at h
          | cons p rest ihl =>
              obtain ⟨k, v⟩ := p
              cases gs with
              | nil => simp [JsonValue.beq, JsonValue.beqObj] at h
              | cons g gs =>
                  obtain ⟨k2, v2⟩ := g
                  simp only [JsonValue.beq, JsonValue.beqObj, Bool.and_eq_true,
                    beq_iff_eq] at h
                  obtain ⟨⟨hk, hv⟩, hrest⟩ := h
                  have h1 := ih ⟨k, v⟩ (by simp) v2 hv
                  have h2 := ihl (fun q hq => ih q (by simp [hq])) gs (by
                    simp [JsonValue.beq, hrest])
                  subst hk
                  simp only at h1
                  subst h1
                  simp only [List.cons.injEq, Prod.mk.injEq, true_and]
                  exact h2
      | null => simp [JsonValue.beq] at h
      | bool b => simp [JsonValue.beq] at h
      | num n => simp [JsonValue.beq] at h
      | str s => simp [JsonValue.beq] at h
      | arr xs => simp [JsonValue.beq] at h

instance : DecidableEq JsonValue := fun a b =>
  decidable_of_iff (JsonValue.beq a b = true)
    ⟨JsonValue.eq_of_beq a b, fun h => h ▸ JsonValue.beq_refl a⟩

/-! ## Canonical JSON serialization (spec §3.1, §4.2)

Modelled from the spec: serialization of argument values is "a canonical
JSON encoding (object keys sorted, no whitespace)". -/

/-- Code-point lexicographic comparison of character lists. -/
def strListLe : List Char → List Char → Bool
  | [], _ => true
  | _ :: _, [] => false
  | a :: as, b :: bs =>
      if a.toNat < b.toNat then true
      else if b.toNat < a.toNat then false
      else strListLe as bs

/-- Code-point lexicographic comparison of strings. -/
def strLe (a b : String) : Bool := strListLe a.toList b.toList

/-- Insertion into a list of key/value pairs sorted by key. -/
def insertByKey {V : Type} (p : String × V) : List (String × V) → List (String × V)
  | [] => [p]
  | q :: t => if strLe p.1 q.1 then p :: q :: t else q :: insertByKey p t

/-- Sort a list of key/value pairs lexicographically by key. -/
def sortByKey {V : Type} : List (String × V) → List (String × V)
  | [] => []
  | p :: t => insertByKey p (sortByKey t)

theorem sizeOf_insertByKey {V : Type} [SizeOf V] (p : String × V)
    (l : List (String × V)) : sizeOf (insertByKey p l) = 1 + sizeOf p + sizeOf l := by
  induction l with
  | nil => simp [insertByKey]
  | cons q t ih =>
      cases h : strLe p.1 q.1
      · simp [insertByKey, h, ih]
        omega
      · simp [insertByKey, h]

theorem sizeOf_sortByKey {V : Type} [SizeOf V] (l : List (String × V)) :
    sizeOf (sortByKey l) = sizeOf l := by
  induction l with
  | nil => rfl
  | cons p t ih => simp [sortByKey, sizeOf_insertByKey, ih]

/-- Escape a character for a JSON string literal. -/
def jsonEscapeChar (c : Char) : String :=
  if c = '"' then "\\\""
  else if c = '\\' then "\\\\"
  else String.singleton c

/-- Quote a string as a JSON string literal. -/
def jsonQuote (s : String) : String :=
  "\"" ++ String.join (s.toList.map jsonEscapeChar) ++ "\""

mutual
/-- Sort every object's keys, recursively (the canonical form of §3.1). -/
def JsonValue.canonicalize : JsonValue → JsonValue
  | .null => .null
  | .bool b => .bool b
  | .num n => .num n
  | .str s => .str s
  | .arr xs => .arr (JsonValue.canonList xs)
  | .obj fs => .obj (sortByKey (JsonValue.canonFields fs))
def JsonValue.canonList : List JsonValue → List JsonValue
  | [] => []
  | x :: t => JsonValue.canonicalize x :: JsonValue.canonList t
def JsonValue.canonFields : List (String × JsonValue) → List (String × JsonValue)
  | [] => []
  | (k, v) :: t => (k, JsonValue.canonicalize v) :: JsonValue.canonFields t
end

mutual
/-- Print a JSON value with no whitespace, fields in the order given. -/
def JsonValue.printVal : JsonValue → String
  | .null => "null"
  | .bool true => "true"
  | .bool false => "false"
  | .num n => toString n
  | .str s => jsonQuote s
  | .arr xs => "[" ++ JsonValue.printItems xs ++ "]"
  | .obj fs => "\x7b" ++ JsonValue.printFields fs ++ "\x7d"
def JsonValue.printItems : List JsonValue → String
  | [] => ""
  | [x] => JsonValue.printVal x
  | x :: y :: rest => JsonValue.printVal x ++ "," ++ JsonValue.printItems (y :: rest)
def JsonValue.printFields : List (String × JsonValue) → String
  | [] => ""
  | [(k, v)] => jsonQuote k ++ ":" ++ JsonValue.printVal v
  | (k, v) :: q :: rest =>
      jsonQuote k ++ ":" ++ JsonValue.printVal v ++ "," ++
        JsonValue.printFields (q :: rest)
end

/-- Modelled from the spec: canonical JSON encoding of a value — object keys
sorted lexicographically, no whitespace (§3.1, §4.2 step 4). -/
def JsonValue.serialize (v : JsonValue) : String :=
  JsonValue.printVal (JsonValue.canonicalize v)

/-! ## StorageKey encoder (spec §4.2, component C2) -/

/-- Modelled from the spec: an argument value AST — a literal or a variable
reference (§4.2 step 1). -/
inductive ArgAST where
  | lit (value : JsonValue)
  | var (name : String)
deriving DecidableEq, Repr

/-- Modelled from the spec: a field argument definition (argument name plus
its value AST). -/
structure ArgDef where
  name : String
  value : ArgAST
deriving DecidableEq, Repr

/-- Modelled from the spec: a variable binding — JS objects map variable
names to JSON values; an absent name is `undefined`. -/
abbrev Variables : Type := List (String × JsonValue)

/-- Modelled from the spec: resolve one argument value AST against the
variables (§4.2 step 1); `none` is JS `undefined`. -/
def resolveArg (a : ArgAST) (vars : Variables) : Option JsonValue :=
  match a with
  | .lit v => some v
  | .var n => alookup vars n

/-- The variable names an argument list references. -/
def referencedVariables (args : List ArgDef) : List String :=
  args.filterMap fun a =>
    match a.value with
    | .var n => some n
    | .lit _ => none

/-- Modelled from the spec: the StorageKey encoder (§4.2): resolve each
argument against the variables, drop `undefined` ones, sort the remaining
argument names lexicographically, and emit
`fieldName(arg1:v1,arg2:v2,…)` with canonical JSON values — or `fieldName`
alone when no arguments remain. -/
def getStorageKey (fieldName : String) (args : List ArgDef) (vars : Variables) :
    String :=
  let resolved := args.filterMap fun a =>
    (resolveArg a.value vars).map fun v => (a.name, v)
  let sorted := sortByKey resolved
  if sorted.isEmpty then fieldName
  else
    fieldName ++ "(" ++
      String.intercalate ","
        (sorted.map fun p => p.1 ++ ":" ++ JsonValue.serialize p.2) ++ ")"

theorem resolved_eq_of_agree (args : List ArgDef) (v v2 : Variables)
    (h : ∀ n ∈ referencedVariables args, alookup v n = alookup v2 n) :
    (args.filterMap fun a => (resolveArg a.value v).map fun x => (a.name, x)) =
      (args.filterMap fun a => (resolveArg a.value v2).map fun x => (a.name, x)) := by
  induction args with
  | nil => rfl
  | cons a rest ih =>
      have hres : resolveArg a.value v = resolveArg a.value v2 := by
        cases hv : a.value with
        | lit x => simp [resolveArg]
        | var n =>
            simp only [resolveArg]
            exact h n (by simp [referencedVariables, List.filterMap_cons, hv])
      have hrest := ih fun n hn => h n (by
        simp only [referencedVariables, List.filterMap_cons] at hn ⊢
        cases a.value <;> simp_all)
      simp [List.filterMap_cons, hres, hrest]

/-- Claim C5: StorageKey purity and canonicality.  For every field (name plus
argument definitions) and every two variable bindings that agree on the
arguments the field references, the storage keys are byte-for-byte equal
strings; in particular two logically equivalent argument sets — assoc lists
differing only in entry order (with unique names) and hence also in
unreferenced variables — produce identical keys. -/
theorem storageKey_pure_canonical (fieldName : String) (args : List ArgDef)
    (v v2 : Variables) :
    ((∀ n ∈ referencedVariables args, alookup v n = alookup v2 n) →
      getStorageKey fieldName args v = getStorageKey fieldName args v2) ∧
    (v.Perm v2 → (v.map Prod.fst).Nodup →
      getStorageKey fieldName args v = getStorageKey fieldName args v2) := by
  have pure : (∀ n ∈ referencedVariables args, alookup v n = alookup v2 n) →
      getStorageKey fieldName args v = getStorageKey fieldName args v2 := by
    intro hagree
    unfold getStorageKey
    rw [resolved_eq_of_agree args v v2 hagree]
  refine ⟨pure, fun hperm hnd => pure fun n _ => ?_⟩
  exact alookup_perm_of_nodup_keys hperm hnd n

/-- Witness for claim C5 at the spec's end-to-end scenario 2:
`friends(first:10, orderby:"name")` and `friends(orderby:"name", first:10)`
produce the identical canonical key `friends(first:10,orderby:"name")`. -/
theorem storageKey_pure_canonical_witness :
    getStorageKey "friends"
        [⟨"first", .var "first"⟩, ⟨"orderby", .var "orderby"⟩]
        [("first", .num 10), ("orderby", .str "name")] =
      getStorageKey "friends"
        [⟨"first", .var "first"⟩, ⟨"orderby", .var "orderby"⟩]
        [("orderby", .str "name"), ("first", .num 10)] ∧
    getStorageKey "friends"
        [⟨"first", .var "first"⟩, ⟨"orderby", .var "orderby"⟩]
        [("first", .num 10), ("orderby", .str "name")] =
      "friends(first:10,orderby:\"name\")" :=
  ⟨(storageKey_pure_canonical "friends"
      [⟨"first", .var "first"⟩, ⟨"orderby", .var "orderby"⟩]
      [("first", .num 10), ("orderby", .str "name")]
      [("orderby", .str "name"), ("first", .num 10)]).2
    (by decide) (by decide), by decide⟩

/-! ## Record data model (spec §3.1, §4.1, component C1) -/

/-- Modelled from the spec: a DataID is an opaque identity, a short string. -/
abbrev DataID : Type := String

/-- Modelled from the spec: a record field value is a scalar, a linked
reference, a plural linked reference, or the `UNDEFINED` sentinel (§3.1);
scalar lists are JSON arrays under `scalar`. -/
inductive FieldValue where
  | scalar (value : JsonValue)
  | ref (id : DataID)
  | refs (ids : List (Option DataID))
  | undef
deriving DecidableEq, Repr

/-- Modelled from the spec: a Record maps StorageKeys to field values. -/
abbrev Record : Type := List (String × FieldValue)

/-- Modelled from the spec: RecordState (§3.1). -/
inductive RecordState where
  | EXISTENT
  | NONEXISTENT
  | UNKNOWN
deriving DecidableEq, Repr

/-- Modelled from the spec: a RecordSource maps DataIDs to records; an entry
whose value is `none` is the NONEXISTENT marker, an absent entry is
UNKNOWN (§4.1). -/
structure RecordSource where
  recs : List (DataID × Option Record)
deriving DecidableEq, Repr

/-- Modelled from the spec: `get(id) → Record | NONEXISTENT-marker |
undefined` (§4.1). -/
def RecordSource.get (s : RecordSource) (id : DataID) : Option (Option Record) :=
  alookup s.recs id

/-- Modelled from the spec: `set(id, record)` (§4.1). -/
def RecordSource.set (s : RecordSource) (id : DataID) (r : Record) : RecordSource :=
  ⟨aset s.recs id (some r)⟩

/-- Modelled from the spec: `delete(id)` marks the id NONEXISTENT (§4.1). -/
def RecordSource.delete (s : RecordSource) (id : DataID) : RecordSource :=
  ⟨aset s.recs id none⟩

/-- Modelled from the spec: `remove(id)` deletes the mapping entirely,
returning the id to UNKNOWN (§4.1). -/
def RecordSource.remove (s : RecordSource) (id : DataID) : RecordSource :=
  ⟨s.recs.filter fun p => p.1 != id⟩

/-- Modelled from the spec: `getStatus(id) → RecordState` (§4.1). -/
def RecordSource.getStatus (s : RecordSource) (id : DataID) : RecordState :=
  match s.get id with
  | none => .UNKNOWN
  | some none => .NONEXISTENT
  | some (some _) => .EXISTENT

/-- Modelled from the spec: `has(id)` — true iff status ≠ UNKNOWN (§4.1). -/
def RecordSource.hasID (s : RecordSource) (id : DataID) : Bool :=
  s.getStatus id != .UNKNOWN

/-- Modelled from the spec: `getRecordIDs()` — the non-UNKNOWN ids (§4.1). -/
def RecordSource.getRecordIDs (s : RecordSource) : List DataID :=
  s.recs.map Prod.fst

/-- Modelled from the spec: `size()` — count of non-UNKNOWN entries (§4.1). -/
def RecordSource.size (s : RecordSource) : Nat :=
  s.recs.length

/-- The empty record source. -/
def RecordSource.empty : RecordSource := ⟨[]⟩

/-! ## Selection AST (spec §6.1) and selectors -/

/-- Modelled from the spec: a selection node (§6.1).  Fragment spreads are
taken as already inlined (§4.3 inlines them), handle fields write nothing
and are omitted, and inline fragments / literal conditions are outside the
modelled subset; conditions carry the `@include`/`@skip` variable. -/
inductive Selection where
  | scalarField (name : String) (aliasName : Option String) (args : List ArgDef)
  | linkedField (name : String) (aliasName : Option String) (args : List ArgDef)
      (selections : List Selection)
  | pluralLinkedField (name : String) (aliasName : Option String) (args : List ArgDef)
      (selections : List Selection)
  | condition (passingValue : Bool) (variableName : String)
      (selections : List Selection)
deriving Repr

/-- Modelled from the spec: a Selector `{dataID, node, variables}` (§3.1);
the `variables` component is named `vars` because `variables` is reserved
in Lean. -/
structure Selector where
  dataID : DataID
  node : List Selection
  vars : Variables

/-- Modelled from the spec: a Snapshot `{selector, data, seenRecords,
isMissingData}` (§3.1); `data` is `none` when the root record is unknown. -/
structure Snapshot where
  selector : Selector
  data : Option (List (String × JsonValue))
  seenRecords : List DataID
  isMissingData : Bool

/-- Modelled from the spec: a store subscription holds the last-dispatched
snapshot (§3.1). -/
structure Subscription where
  snapshot : Snapshot

/-- Modelled from the spec: the Store owns the base source, the subscription
set, the retainer list and the updatedRecordIDs accumulated since the last
notify (§4.7).  Reference counts only affect GC scheduling, so each
`retain` is one retainer entry here. -/
structure Store where
  base : RecordSource
  updatedRecordIDs : List DataID
  subscriptions : List Subscription
  retainers : List Selector

/-! ## Store.publish (spec §4.7, claim C3) -/

/-- Modelled from the spec: field-wise merge of a published record into a
base record — scalars overwrite, references overwrite wholesale (§3.3). -/
def mergeRecord (base pub : Record) : Record :=
  pub.foldl (fun acc p => aset acc p.1 p.2) base

/-- Modelled from the spec: the base entry a publish leaves for one id —
NONEXISTENT stays NONEXISTENT, otherwise the published record is
field-merged over the existing base record when there is one (§4.7). -/
def publishedRec (old : Option (Option Record)) (pub : Option Record) :
    Option Record :=
  match pub, old with
  | none, _ => none
  | some r, some (some b) => some (mergeRecord b r)
  | some r, _ => some r

/-- Modelled from the spec: merge one published entry into the base; the id
is accumulated into `updatedRecordIDs` when the base entry changed (§4.7
`publish`). -/
def Store.publishEntry (st : Store) (e : DataID × Option Record) : Store :=
  { st with
    base := ⟨aset st.base.recs e.1 (publishedRec (st.base.get e.1) e.2)⟩
    updatedRecordIDs :=
      if st.base.get e.1 = some (publishedRec (st.base.get e.1) e.2)
      then st.updatedRecordIDs
      else st.updatedRecordIDs ++ [e.1] }

/-- Modelled from the spec: `publish(source)` merges `source` into the base
record-by-record, accumulating changed ids (§4.7). -/
def Store.publish (st : Store) (source : RecordSource) : Store :=
  source.recs.foldl Store.publishEntry st


theorem publishEntry_base_self (st : Store) (id : DataID) (p : Option Record) :
    (st.publishEntry (id, p)).base.get id =
      some (publishedRec (st.base.get id) p) := by
  simp only [Store.publishEntry, RecordSource.get]
  exact alookup_aset_self _ _ _

theorem publishEntry_base_ne (st : Store) (e : DataID × Option Record)
    (id : DataID) (h : id ≠ e.1) :
    (st.publishEntry e).base.get id = st.base.get id := by
  simp only [Store.publishEntry, RecordSource.get]
  exact alookup_aset_ne _ _ _ _ h

theorem alookup_cons_self {K V : Type} [DecidableEq K]
    (t : List (K × V)) (k : K) (v : V) : alookup ((k, v) :: t) k = some v := by
  simp [alookup]

theorem alookup_cons_ne {K V : Type} [DecidableEq K]
    (t : List (K × V)) (k0 k : K) (v : V) (h : k0 ≠ k) :
    alookup ((k0, v) :: t) k = alookup t k := by
  simp [alookup, h]

theorem publishEntry_upd_iff (st : Store) (e : DataID × Option Record)
    (i : DataID) :
    (i ∈ (st.publishEntry e).updatedRecordIDs ↔
      i ∈ st.updatedRecordIDs ∨
        (i = e.1 ∧
          st.base.get e.1 ≠ some (publishedRec (st.base.get e.1) e.2))) := by
  simp only [Store.publishEntry]
  by_cases hc : st.base.get e.1 = some (publishedRec (st.base.get e.1) e.2)
  · rw [if_pos hc]
    exact ⟨fun h => Or.inl h,
      fun h => h.elim (fun h => h) (fun h => absurd hc h.2)⟩
  · rw [if_neg hc]
    simp only [List.mem_append, List.mem_singleton]
    exact ⟨fun h => h.elim Or.inl (fun he => Or.inr ⟨he, hc⟩),
      fun h => h.elim Or.inl (fun he => Or.inr he.1)⟩

theorem publish_frame (l : List (DataID × Option Record)) (st : Store)
    (id : DataID) (h : id ∉ l.map Prod.fst) :
    (l.foldl Store.publishEntry st).base.get id = st.base.get id ∧
      (id ∈ (l.foldl Store.publishEntry st).updatedRecordIDs ↔
        id ∈ st.updatedRecordIDs) := by
  induction l generalizing st with
  | nil => exact ⟨rfl, Iff.rfl⟩
  | cons e t ih =>
      simp only [List.map_cons, List.mem_cons] at h
      push_neg at h
      have step := ih (st.publishEntry e) h.2
      refine ⟨step.1.trans (publishEntry_base_ne st e id h.1), ?_⟩
      refine step.2.trans ?_
      rw [publishEntry_upd_iff]
      simp [h.1]

theorem publishList_spec (l : List (DataID × Option Record)) (st : Store)
    (id : DataID) (hnd : (l.map Prod.fst).Nodup) :
    (alookup l id = some none →
      (l.foldl Store.publishEntry st).base.get id = some none) ∧
    (alookup l id = none →
      (l.foldl Store.publishEntry st).base.get id = st.base.get id) ∧
    (∀ r, alookup l id = some (some r) →
      (l.foldl Store.publishEntry st).base.get id =
        some (publishedRec (st.base.get id) (some r))) ∧
    (id ∈ (l.foldl Store.publishEntry st).updatedRecordIDs ↔
      id ∈ st.updatedRecordIDs ∨
        (l.foldl Store.publishEntry st).base.get id ≠ st.base.get id) := by
  induction l generalizing st with
  | nil =>
      refine ⟨fun h => by simp [alookup] at h, fun _ => rfl,
        fun r h => by simp [alookup] at h, by simp⟩
  | cons e t ih =>
      obtain ⟨k, p⟩ := e
      simp only [List.map_cons, List.nodup_cons] at hnd
      simp only [List.foldl_cons]
      by_cases hk : k = id
      · subst hk
        have hframe := publish_frame t (st.publishEntry (k, p)) k hnd.1
        have hget := hframe.1.trans (publishEntry_base_self st k p)
        refine ⟨?_, ?_, ?_, ?_⟩
        · intro h
          rw [alookup_cons_self] at h
          injection h with h2
          subst h2
          rw [hget]
          rfl
        · intro h
          rw [alookup_cons_self] at h
          exact absurd h (by simp)
        · intro r h
          rw [alookup_cons_self] at h
          injection h with h2
          subst h2
          exact hget
        · rw [hframe.2, publishEntry_upd_iff, hget]
          simp only [ne_eq, true_and]
          constructor
          · intro h
            exact h.imp (fun x => x) (fun hne e => hne e.symm)
          · intro h
            exact h.imp (fun x => x) (fun hne e => hne e.symm)
      · have hke : id ≠ k := fun e => hk e.symm
        have hstep := ih (st.publishEntry (k, p)) hnd.2
        have hbase : (st.publishEntry (k, p)).base.get id = st.base.get id :=
          publishEntry_base_ne st (k, p) id hke
        have hupd : (id ∈ (st.publishEntry (k, p)).updatedRecordIDs ↔
            id ∈ st.updatedRecordIDs) := by
          rw [publishEntry_upd_iff]
          simp [hke]
        rw [alookup_cons_ne t k id p hk]
        refine ⟨fun h => hstep.1 h, fun h => (hstep.2.1 h).trans hbase,
          fun r h => ?_, ?_⟩
        · have := hstep.2.2.1 r h
          rw [hbase] at this
          exact this
        · rw [hstep.2.2.2, hupd, hbase]

/-- Claim C3: `Store.publish` merge semantics.  For every store, published
source with unique ids (a JS object keyed by DataID), and DataID: a record
NONEXISTENT in the published source makes the base entry NONEXISTENT; an id
absent from the published source leaves the base entry unchanged; a record
present in the published source yields `publishedRec` — the base record
field-merged with the published record (or the published record itself when
no base record exists); and an id is in `updatedRecordIDs` afterwards iff it
was already there or its base entry changed. -/
theorem store_publish_merge (st : Store) (source : RecordSource)
    (hnd : (source.recs.map Prod.fst).Nodup) (id : DataID) :
    (source.get id = some none →
      (st.publish source).base.get id = some none) ∧
    (source.get id = none →
      (st.publish source).base.get id = st.base.get id) ∧
    (∀ r, source.get id = some (some r) →
      (st.publish source).base.get id =
        some (publishedRec (st.base.get id) (some r))) ∧
    (id ∈ (st.publish source).updatedRecordIDs ↔
      id ∈ st.updatedRecordIDs ∨
        (st.publish source).base.get id ≠ st.base.get id) := by
  obtain ⟨l⟩ := source
  exact publishList_spec l st id hnd

/-- Witness for claim C3 at a concrete input: base has record `a` with
`x = 1` and `y = 2`; the published source overwrites `a.x` with `3` and
marks `b` NONEXISTENT; `c` is untouched. -/
theorem store_publish_merge_witness :
    ((RecordSource.mk [("a", some [("x", FieldValue.scalar (JsonValue.num 3))]),
        ("b", none)]).recs.map Prod.fst).Nodup ∧
    ((Store.mk
        ⟨[("a", some [("x", FieldValue.scalar (JsonValue.num 1)),
                      ("y", FieldValue.scalar (JsonValue.num 2))]),
          ("c", some [("z", FieldValue.scalar JsonValue.null)])]⟩
        [] [] []).publish
      (RecordSource.mk [("a", some [("x", FieldValue.scalar (JsonValue.num 3))]),
        ("b", none)])).base.get "a" =
      some (some [("x", FieldValue.scalar (JsonValue.num 3)),
                  ("y", FieldValue.scalar (JsonValue.num 2))]) :=
  ⟨by decide,
    by
      have h := (store_publish_merge
        (Store.mk
          ⟨[("a", some [("x", FieldValue.scalar (JsonValue.num 1)),
                        ("y", FieldValue.scalar (JsonValue.num 2))]),
            ("c", some [("z", FieldValue.scalar JsonValue.null)])]⟩
          [] [] [])
        (RecordSource.mk [("a", some [("x", FieldValue.scalar (JsonValue.num 3))]),
          ("b", none)])
        (by decide) "a").2.2.1
        [("x", FieldValue.scalar (JsonValue.num 3))] (by decide)
      exact h.trans (by decide)⟩

/-! ## Normalization writes (spec §4.3, component C3)

Modelled from the spec: the normalizer is a recursive descent that performs
a sequence of record-field writes (`record[storageKey] = value`), creating
records as it first writes to them (§3.3, §4.3).  The write list is a pure
function of the response and selector (child ids come from the response or
are synthesized deterministically, §4.3), so normalization is embedded as
computing the write list and then applying it. -/

/-- One normalization write: `record[key] = value` on the record `id`,
creating the record when the id is UNKNOWN or NONEXISTENT (§3.3). -/
structure NWrite where
  id : DataID
  key : String
  value : FieldValue
deriving DecidableEq, Repr

/-- Apply one write to a source (§3.3: records are created by normalization
writes; fields merge by overwriting). -/
def applyWrite (s : RecordSource) (w : NWrite) : RecordSource :=
  match s.get w.id with
  | some (some r) => ⟨aset s.recs w.id (some (aset r w.key w.value))⟩
  | _ => ⟨aset s.recs w.id (some [(w.key, w.value)])⟩

/-- Apply a write list left to right (traversal order). -/
def applyWrites (s : RecordSource) (ws : List NWrite) : RecordSource :=
  ws.foldl applyWrite s

/-- The value stored for field `k` of record `i`, when record and field
exist. -/
def getCell (s : RecordSource) (i : DataID) (k : String) : Option FieldValue :=
  match s.get i with
  | some (some r) => alookup r k
  | _ => none

/-- The last value a write list writes to cell `(i, k)`, if any. -/
def lastVal (ws : List NWrite) (i : DataID) (k : String) : Option FieldValue :=
  ws.foldl (fun acc w => if w.id = i ∧ w.key = k then some w.value else acc) none

theorem recordSource_get_mk (recs : List (DataID × Option Record)) (i : DataID) :
    RecordSource.get ⟨recs⟩ i = alookup recs i := rfl

theorem applyWrite_get_ne (s : RecordSource) (w : NWrite) (i : DataID)
    (h : i ≠ w.id) : (applyWrite s w).get i = s.get i := by
  unfold applyWrite
  cases hw : s.get w.id with
  | none => exact alookup_aset_ne _ _ _ _ h
  | some r0 =>
      cases r0 with
      | none => exact alookup_aset_ne _ _ _ _ h
      | some r => exact alookup_aset_ne _ _ _ _ h

theorem applyWrite_get_self (s : RecordSource) (w : NWrite) :
    (applyWrite s w).get w.id =
      some (some (match s.get w.id with
        | some (some r) => aset r w.key w.value
        | _ => [(w.key, w.value)])) := by
  unfold applyWrite
  cases hw : s.get w.id with
  | none =>
      rw [recordSource_get_mk, alookup_aset_self]
  | some r0 =>
      cases r0 with
      | none => rw [recordSource_get_mk, alookup_aset_self]
      | some r => rw [recordSource_get_mk, alookup_aset_self]

theorem getCell_def (s : RecordSource) (i : DataID) (k : String) :
    getCell s i k =
      match s.get i with
      | some (some r) => alookup r k
      | _ => none := rfl

theorem getCell_applyWrite (s : RecordSource) (w : NWrite) (i : DataID)
    (k : String) :
    getCell (applyWrite s w) i k =
      if w.id = i ∧ w.key = k then some w.value else getCell s i k := by
  by_cases hi : w.id = i
  · subst hi
    rw [getCell_def, applyWrite_get_self]
    simp only [true_and]
    cases hw : s.get w.id with
    | none =>
        by_cases hk : w.key = k
        · subst hk
          simp [alookup]
        · rw [alookup_cons_ne _ _ _ _ hk]
          simp [alookup, hk, getCell, hw]
    | some r0 =>
        cases r0 with
        | none =>
            by_cases hk : w.key = k
            · subst hk
              simp [alookup]
            · rw [alookup_cons_ne _ _ _ _ hk]
              simp [alookup, hk, getCell, hw]
        | some r =>
            by_cases hk : w.key = k
            · subst hk
              simp [alookup_aset_self]
            · rw [alookup_aset_ne _ _ _ _ (fun e => hk e.symm)]
              simp [getCell, hw, hk]
  · have hg := applyWrite_get_ne s w i (fun e => hi e.symm)
    rw [getCell_def, hg, ← getCell_def]
    have hc : ¬(w.id = i ∧ w.key = k) := fun hc => hi hc.1
    simp [hc]

theorem lastVal_foldl_init (ws : List NWrite) (i : DataID) (k : String)
    (a : Option FieldValue) :
    ws.foldl (fun acc w => if w.id = i ∧ w.key = k then some w.value else acc) a =
      match lastVal ws i k with
      | some v => some v
      | none => a := by
  induction ws generalizing a with
  | nil => simp [lastVal]
  | cons w t ih =>
      show t.foldl _ (if w.id = i ∧ w.key = k then some w.value else a) = _
      have hl : lastVal (w :: t) i k =
          t.foldl (fun acc w => if w.id = i ∧ w.key = k then some w.value else acc)
            (if w.id = i ∧ w.key = k then some w.value else none) := rfl
      rw [ih, hl, ih]
      by_cases hc : w.id = i ∧ w.key = k
      · simp only [if_pos hc]
        cases lastVal t i k <;> rfl
      · simp only [if_neg hc]
        cases lastVal t i k <;> rfl

theorem lastVal_cons (w : NWrite) (t : List NWrite) (i : DataID) (k : String) :
    lastVal (w :: t) i k =
      match lastVal t i k with
      | some v => some v
      | none => if w.id = i ∧ w.key = k then some w.value else none := by
  show t.foldl _ (if w.id = i ∧ w.key = k then some w.value else none) = _
  rw [lastVal_foldl_init]

theorem getCell_applyWrites (ws : List NWrite) (s : RecordSource) (i : DataID)
    (k : String) :
    getCell (applyWrites s ws) i k =
      match lastVal ws i k with
      | some v => some v
      | none => getCell s i k := by
  induction ws generalizing s with
  | nil => simp [applyWrites, lastVal]
  | cons w t ih =>
      show getCell (applyWrites (applyWrite s w) t) i k = _
      rw [ih, lastVal_cons, getCell_applyWrite]
      by_cases hc : w.id = i ∧ w.key = k
      · simp only [if_pos hc]
        cases lastVal t i k <;> rfl
      · simp only [if_neg hc]
        cases lastVal t i k <;> rfl

/-- Writes are consistent when no cell is written with two different
values. -/
def consistentW (ws : List NWrite) : Prop :=
  ∀ w1 ∈ ws, ∀ w2 ∈ ws, w1.id = w2.id → w1.key = w2.key → w1.value = w2.value

instance (ws : List NWrite) : Decidable (consistentW ws) := by
  unfold consistentW
  infer_instance

theorem lastVal_spec (ws : List NWrite) (i : DataID) (k : String) :
    lastVal ws i k = none ∨
      ∃ u ∈ ws, u.id = i ∧ u.key = k ∧ lastVal ws i k = some u.value := by
  induction ws with
  | nil => exact Or.inl rfl
  | cons w t ih =>
      rw [lastVal_cons]
      rcases ih with hnone | ⟨u, hu, hui, huk, huv⟩
      · rw [hnone]
        by_cases hc : w.id = i ∧ w.key = k
        · exact Or.inr ⟨w, by simp, hc.1, hc.2, by simp [hc]⟩
        · exact Or.inl (by simp [hc])
      · rw [huv]
        exact Or.inr ⟨u, by simp [hu], hui, huk, rfl⟩

theorem lastVal_isSome_of_mem (ws : List NWrite) (w : NWrite) (hm : w ∈ ws) :
    ∃ v, lastVal ws w.id w.key = some v := by
  induction ws with
  | nil => cases hm
  | cons w0 t ih =>
      rw [lastVal_cons]
      rcases List.mem_cons.mp hm with he | ht
      · subst he
        cases hlt : lastVal t w.id w.key with
        | some v => exact ⟨v, rfl⟩
        | none => exact ⟨w.value, by simp⟩
      · obtain ⟨v, hv⟩ := ih ht
        rw [hv]
        exact ⟨v, rfl⟩

theorem getCell_of_mem_consistent (ws : List NWrite) (s : RecordSource)
    (w : NWrite) (hm : w ∈ ws) (hc : consistentW ws) :
    getCell (applyWrites s ws) w.id w.key = some w.value := by
  rcases lastVal_spec ws w.id w.key with hnone | ⟨u, hu, hui, huk, huv⟩
  · obtain ⟨v, hv⟩ := lastVal_isSome_of_mem ws w hm
    rw [hnone] at hv
    cases hv
  · rw [getCell_applyWrites, huv]
    have := hc u hu w hm hui huk
    rw [this]

theorem aset_aset {K V : Type} [DecidableEq K] (l : List (K × V)) (k : K)
    (v1 v2 : V) : aset (aset l k v1) k v2 = aset l k v2 := by
  induction l with
  | nil => simp [aset]
  | cons p t ih =>
      obtain ⟨k0, v0⟩ := p
      by_cases h : k0 = k
      · simp [aset, h]
      · simp [aset, h, ih]

theorem aset_comm_of_mem {K V : Type} [DecidableEq K] (l : List (K × V))
    (k k2 : K) (v u : V) (hne : k ≠ k2) (hk : (alookup l k).isSome) :
    aset (aset l k v) k2 u = aset (aset l k2 u) k v := by
  induction l with
  | nil => simp [alookup] at hk
  | cons p t ih =>
      obtain ⟨k0, v0⟩ := p
      by_cases h0 : k0 = k
      · subst h0
        simp [aset, hne, Ne.symm hne]
      · by_cases h2 : k0 = k2
        · subst h2
          simp only [alookup, if_neg h0] at hk
          simp [aset, h0, Ne.symm hne, hne]
        · simp only [alookup, if_neg h0] at hk
          simp [aset, h0, h2, ih hk]

/-- The record an `applyWrite` stores at the written id. -/
def newRecOf (s : RecordSource) (w : NWrite) : Record :=
  match s.get w.id with
  | some (some r) => aset r w.key w.value
  | _ => [(w.key, w.value)]

theorem applyWrite_eq (s : RecordSource) (w : NWrite) :
    applyWrite s w = ⟨aset s.recs w.id (some (newRecOf s w))⟩ := by
  unfold applyWrite newRecOf
  cases s.get w.id with
  | none => rfl
  | some r0 => cases r0 with
    | none => rfl
    | some r => rfl

theorem applyWrite_get_self2 (s : RecordSource) (w : NWrite) :
    (applyWrite s w).get w.id = some (some (newRecOf s w)) := by
  rw [applyWrite_eq, recordSource_get_mk, alookup_aset_self]

theorem newRecOf_collapse (s : RecordSource) (i : DataID) (k : String)
    (v1 v2 : FieldValue) :
    aset (newRecOf s ⟨i, k, v1⟩) k v2 = newRecOf s ⟨i, k, v2⟩ := by
  unfold newRecOf
  cases hw : s.get i with
  | none => simp [aset]
  | some r0 => cases r0 with
    | none => simp [aset]
    | some r => exact aset_aset r k v1 v2

theorem applyWrite_collapse (s : RecordSource) (i : DataID) (k : String)
    (v1 v2 : FieldValue) :
    applyWrite (applyWrite s ⟨i, k, v1⟩) ⟨i, k, v2⟩ = applyWrite s ⟨i, k, v2⟩ := by
  have hrec : newRecOf (applyWrite s ⟨i, k, v1⟩) ⟨i, k, v2⟩ =
      newRecOf s ⟨i, k, v2⟩ := by
    unfold newRecOf
    rw [show (⟨i, k, v2⟩ : NWrite).id = i from rfl,
      show (applyWrite s ⟨i, k, v1⟩).get i =
        some (some (newRecOf s ⟨i, k, v1⟩)) from applyWrite_get_self2 s ⟨i, k, v1⟩]
    exact newRecOf_collapse s i k v1 v2
  rw [applyWrite_eq (applyWrite s ⟨i, k, v1⟩), hrec,
    applyWrite_eq s ⟨i, k, v1⟩, applyWrite_eq s ⟨i, k, v2⟩]
  simp only [RecordSource.mk.injEq]
  exact aset_aset s.recs i _ _

theorem getCell_isSome_elim (s : RecordSource) (i : DataID) (k : String)
    (h : (getCell s i k).isSome) :
    ∃ r, s.get i = some (some r) ∧ (alookup r k).isSome := by
  rw [getCell_def] at h
  cases hw : s.get i with
  | none => rw [hw] at h; simp at h
  | some r0 =>
      cases r0 with
      | none => rw [hw] at h; simp at h
      | some r =>
          rw [hw] at h
          exact ⟨r, rfl, h⟩

theorem recordSource_ext (s1 s2 : RecordSource) (h : s1.recs = s2.recs) :
    s1 = s2 := by
  cases s1
  cases s2
  simpa using h

theorem applyWrite_recs (s : RecordSource) (w : NWrite) :
    (applyWrite s w).recs = aset s.recs w.id (some (newRecOf s w)) := by
  rw [applyWrite_eq]

theorem applyWrite_comm (s : RecordSource) (w w2 : NWrite)
    (hcell : (getCell s w.id w.key).isSome)
    (hne : w.id ≠ w2.id ∨ w.key ≠ w2.key) :
    applyWrite (applyWrite s w) w2 = applyWrite (applyWrite s w2) w := by
  obtain ⟨r, hr, hk⟩ := getCell_isSome_elim s w.id w.key hcell
  by_cases hid : w2.id = w.id
  · -- same record, different keys
    have hkne : w.key ≠ w2.key := by
      rcases hne with h | h
      · exact absurd hid.symm h
      · exact h
    have hrec1 : newRecOf s w = aset r w.key w.value := by
      unfold newRecOf
      rw [hr]
    have hget1 : (applyWrite s w).get w2.id = some (some (aset r w.key w.value)) := by
      rw [hid, applyWrite_get_self2, hrec1]
    have hrec1b : newRecOf (applyWrite s w) w2 =
        aset (aset r w.key w.value) w2.key w2.value := by
      unfold newRecOf
      rw [hget1]
    have hrec2 : newRecOf s w2 = aset r w2.key w2.value := by
      unfold newRecOf
      rw [hid, hr]
    have hget2 : (applyWrite s w2).get w.id = some (some (aset r w2.key w2.value)) := by
      rw [← hid, applyWrite_get_self2, hrec2]
    have hrec2b : newRecOf (applyWrite s w2) w =
        aset (aset r w2.key w2.value) w.key w.value := by
      unfold newRecOf
      rw [hget2]
    apply recordSource_ext
    rw [applyWrite_recs (applyWrite s w) w2, hrec1b,
      applyWrite_recs (applyWrite s w2) w, hrec2b,
      applyWrite_recs s w, hrec1, applyWrite_recs s w2, hrec2]
    simp only [hid]
    rw [aset_aset, aset_aset]
    rw [aset_comm_of_mem r w.key w2.key w.value w2.value hkne hk]
  · -- different records
    have hgne : (applyWrite s w).get w2.id = s.get w2.id :=
      applyWrite_get_ne s w w2.id hid
    have hgne2 : (applyWrite s w2).get w.id = s.get w.id :=
      applyWrite_get_ne s w2 w.id (fun e => hid e.symm)
    have hrec2 : newRecOf (applyWrite s w) w2 = newRecOf s w2 := by
      unfold newRecOf
      rw [hgne]
    have hrec1 : newRecOf (applyWrite s w2) w = newRecOf s w := by
      unfold newRecOf
      rw [hgne2]
    apply recordSource_ext
    rw [applyWrite_recs (applyWrite s w) w2, hrec2,
      applyWrite_recs (applyWrite s w2) w, hrec1,
      applyWrite_recs s w, applyWrite_recs s w2]
    have hpresent : (alookup s.recs w.id).isSome := by
      rw [show alookup s.recs w.id = s.get w.id from rfl, hr]
      rfl
    exact aset_comm_of_mem s.recs w.id w2.id
      (some (newRecOf s w)) (some (newRecOf s w2)) (fun e => hid e.symm) hpresent

theorem applyWrite_eq_self (s : RecordSource) (w : NWrite)
    (h : getCell s w.id w.key = some w.value) : applyWrite s w = s := by
  obtain ⟨r, hr, hk⟩ := getCell_isSome_elim s w.id w.key (by rw [h]; rfl)
  have hval : alookup r w.key = some w.value := by
    rw [getCell_def, hr] at h
    exact h
  have hrec : newRecOf s w = r := by
    unfold newRecOf
    rw [hr]
    exact aset_eq_of_alookup r w.key w.value hval
  rw [applyWrite_eq, hrec]
  have : aset s.recs w.id (some r) = s.recs :=
    aset_eq_of_alookup s.recs w.id (some r) hr
  rw [this]

theorem getCell_isSome_mono (s : RecordSource) (w : NWrite) (i : DataID)
    (k : String) (h : (getCell s i k).isSome) :
    (getCell (applyWrite s w) i k).isSome := by
  rw [getCell_applyWrite]
  by_cases hc : w.id = i ∧ w.key = k
  · simp [hc]
  · simp [hc, h]

theorem applyWrites_overwrite (ws : List NWrite) :
    ∀ (t : RecordSource) (i : DataID) (k : String) (v1 v2 : FieldValue),
      (lastVal ws i k).isSome → (getCell t i k).isSome →
      applyWrites (applyWrite t ⟨i, k, v1⟩) ws =
        applyWrites (applyWrite t ⟨i, k, v2⟩) ws := by
  induction ws with
  | nil =>
      intro t i k v1 v2 hl _
      simp [lastVal] at hl
  | cons w rest ih =>
      intro t i k v1 v2 hl hc
      show applyWrites (applyWrite (applyWrite t ⟨i, k, v1⟩) w) rest =
        applyWrites (applyWrite (applyWrite t ⟨i, k, v2⟩) w) rest
      by_cases hw : w.id = i ∧ w.key = k
      · obtain ⟨wid, wkey, wval⟩ := w
        obtain ⟨hwi, hwk⟩ := hw
        simp only at hwi hwk
        subst hwi
        subst hwk
        rw [applyWrite_collapse, applyWrite_collapse]
      · have hl2 : (lastVal rest i k).isSome := by
          rw [lastVal_cons] at hl
          cases hlt : lastVal rest i k with
          | some v => rfl
          | none =>
              rw [hlt, if_neg hw] at hl
              simp at hl
        have hne1 : (⟨i, k, v1⟩ : NWrite).id ≠ w.id ∨
            (⟨i, k, v1⟩ : NWrite).key ≠ w.key := by
          by_cases hwi : w.id = i
          · right
            intro he
            exact hw ⟨hwi, by rw [← he]⟩
          · left
            exact fun e => hwi e.symm
        have hne2 : (⟨i, k, v2⟩ : NWrite).id ≠ w.id ∨
            (⟨i, k, v2⟩ : NWrite).key ≠ w.key := hne1
        rw [applyWrite_comm t ⟨i, k, v1⟩ w hc hne1,
          applyWrite_comm t ⟨i, k, v2⟩ w hc hne2]
        exact ih (applyWrite t w) i k v1 v2 hl2 (getCell_isSome_mono t w i k hc)

theorem applyWrites_idem (ws : List NWrite) :
    ∀ s, applyWrites (applyWrites s ws) ws = applyWrites s ws := by
  induction ws with
  | nil => intro s; rfl
  | cons w rest ih =>
      intro s
      show applyWrites
          (applyWrite (applyWrites (applyWrite s w) rest) w) rest =
        applyWrites (applyWrite s w) rest
      have hcu : getCell (applyWrite s w) w.id w.key = some w.value := by
        rw [getCell_applyWrite]
        simp
      cases hlast : lastVal rest w.id w.key with
      | none =>
          have hcT : getCell (applyWrites (applyWrite s w) rest) w.id w.key =
              some w.value := by
            rw [getCell_applyWrites, hlast, hcu]
          rw [applyWrite_eq_self _ w hcT]
          exact ih (applyWrite s w)
      | some v0 =>
          have hcT : getCell (applyWrites (applyWrite s w) rest) w.id w.key =
              some v0 := by
            rw [getCell_applyWrites, hlast]
          have hsome : (lastVal rest w.id w.key).isSome := by
            rw [hlast]
            rfl
          have h1 : applyWrites
              (applyWrite (applyWrites (applyWrite s w) rest)
                ⟨w.id, w.key, w.value⟩) rest =
              applyWrites
                (applyWrite (applyWrites (applyWrite s w) rest)
                  ⟨w.id, w.key, v0⟩) rest :=
            applyWrites_overwrite rest (applyWrites (applyWrite s w) rest)
              w.id w.key w.value v0 hsome (by rw [hcT]; rfl)
          have h2 : applyWrite (applyWrites (applyWrite s w) rest)
              ⟨w.id, w.key, v0⟩ = applyWrites (applyWrite s w) rest :=
            applyWrite_eq_self _ ⟨w.id, w.key, v0⟩ hcT
          rw [h1, h2]
          exact ih (applyWrite s w)

/-! ## Normalizer (spec §4.3, component C3) -/

/-- The key a field occupies in response and read data: alias or name. -/
def responseKey (name : String) (aliasName : Option String) : String :=
  aliasName.getD name

/-- Modelled from the spec: evaluate an `@include`/`@skip` condition against
the variables (§4.3); a non-boolean or missing variable is falsy. -/
def conditionPasses (vars : Variables) (passingValue : Bool) (n : String) :
    Bool :=
  (match alookup vars n with
   | some (.bool b) => b
   | _ => false) == passingValue

/-- Modelled from the spec: child id derivation (§4.3) — a response `id`
scalar wins, otherwise the client id `parentId:storageKey`. -/
def childID (cfields : List (String × JsonValue)) (parentID : DataID)
    (key : String) : DataID :=
  match alookup cfields "id" with
  | some (.str s) => s
  | _ => parentID ++ ":" ++ key

/-- Modelled from the spec: plural child id derivation (§4.3) — a response
`id` scalar wins, otherwise `parentId:storageKey:index`. -/
def pluralChildID (cfields : List (String × JsonValue)) (parentID : DataID)
    (key : String) (idx : Nat) : DataID :=
  match alookup cfields "id" with
  | some (.str s) => s
  | _ => parentID ++ ":" ++ key ++ ":" ++ toString idx

/-- The id list stored in a plural linked reference: one entry per response
element, `none` for null elements (§3.1). -/
def pluralIDs : List JsonValue → DataID → String → Nat → List (Option DataID)
  | [], _, _, _ => []
  | .obj cfields :: rest, parentID, key, idx =>
      some (pluralChildID cfields parentID key idx) ::
        pluralIDs rest parentID key (idx + 1)
  | _ :: rest, parentID, key, idx => none :: pluralIDs rest parentID key (idx + 1)

mutual
/-- Modelled from the spec: the writes one selection performs — scalar
fields store the response value (`UNDEFINED` when missing), linked fields
store a reference and recurse, plural linked fields store a reference list
and recurse per element, conditions gate their subtree (§4.3).  A scalar
where a link is expected is a shape error; the total function records
`UNDEFINED` there and `wsSel` rejects such responses. -/
def normSel (vars : Variables) (id : DataID)
    (fields : List (String × JsonValue)) (sel : Selection) : List NWrite :=
  match sel with
  | .scalarField name al args =>
      match alookup fields (responseKey name al) with
      | none => [⟨id, getStorageKey name args vars, .undef⟩]
      | some v => [⟨id, getStorageKey name args vars, .scalar v⟩]
  | .linkedField name al args sels =>
      match alookup fields (responseKey name al) with
      | none => [⟨id, getStorageKey name args vars, .undef⟩]
      | some .null => [⟨id, getStorageKey name args vars, .scalar .null⟩]
      | some (.obj cfields) =>
          ⟨id, getStorageKey name args vars,
            .ref (childID cfields id (getStorageKey name args vars))⟩ ::
            normSels vars (childID cfields id (getStorageKey name args vars))
              cfields sels
      | some _ => [⟨id, getStorageKey name args vars, .undef⟩]
  | .pluralLinkedField name al args sels =>
      match alookup fields (responseKey name al) with
      | none => [⟨id, getStorageKey name args vars, .undef⟩]
      | some .null => [⟨id, getStorageKey name args vars, .scalar .null⟩]
      | some (.arr elems) =>
          ⟨id, getStorageKey name args vars,
            .refs (pluralIDs elems id (getStorageKey name args vars) 0)⟩ ::
            normPlural vars elems id (getStorageKey name args vars) 0 sels
      | some _ => [⟨id, getStorageKey name args vars, .undef⟩]
  | .condition pv vn sels =>
      if conditionPasses vars pv vn then normSels vars id fields sels else []
termination_by (sizeOf sel, 0, 0)

/-- Writes of a selection list, in traversal order (§4.3). -/
def normSels (vars : Variables) (id : DataID)
    (fields : List (String × JsonValue)) (l : List Selection) : List NWrite :=
  match l with
  | [] => []
  | s :: rest => normSel vars id fields s ++ normSels vars id fields rest
termination_by (sizeOf l, 0, 0)

/-- Writes of the elements of a plural linked field (§4.3). -/
def normPlural (vars : Variables) (elems : List JsonValue) (parentID : DataID)
    (key : String) (idx : Nat) (sels : List Selection) : List NWrite :=
  match elems with
  | [] => []
  | .obj cfields :: rest =>
      normSels vars (pluralChildID cfields parentID key idx) cfields sels ++
        normPlural vars rest parentID key (idx + 1) sels
  | _ :: rest => normPlural vars rest parentID key (idx + 1) sels
termination_by (sizeOf sels, 1, elems.length)
end

/-- Modelled from the spec: `normalize(mutableSource, responseRoot,
selector)` writes the selector-shaped response into the source (§4.3),
embedded as applying the normalizer's write list. -/
def normalizeResponse (s : RecordSource) (sel : Selector)
    (resp : List (String × JsonValue)) : RecordSource :=
  applyWrites s (normSels sel.vars sel.dataID resp sel.node)

/-! ## Response shape checking (spec §7 ShapeError) -/

/-- Whether a selection list performs at least one write under these
variables (so a child record always exists after normalization). -/
def hasActive (vars : Variables) (l : List Selection) : Bool :=
  match l with
  | [] => false
  | .scalarField _ _ _ :: _ => true
  | .linkedField _ _ _ _ :: _ => true
  | .pluralLinkedField _ _ _ _ :: _ => true
  | .condition pv vn sels :: rest =>
      (conditionPasses vars pv vn && hasActive vars sels) || hasActive vars rest
termination_by sizeOf l

/-- The response keys a selection list can populate under these variables. -/
def activeRespKeys (vars : Variables) (l : List Selection) : List String :=
  match l with
  | [] => []
  | .scalarField n al _ :: rest => responseKey n al :: activeRespKeys vars rest
  | .linkedField n al _ _ :: rest => responseKey n al :: activeRespKeys vars rest
  | .pluralLinkedField n al _ _ :: rest =>
      responseKey n al :: activeRespKeys vars rest
  | .condition pv vn sels :: rest =>
      (if conditionPasses vars pv vn then activeRespKeys vars sels else []) ++
        activeRespKeys vars rest
termination_by sizeOf l

mutual
/-- Modelled from the spec: the payload shape matches one selection — a
linked field's response value is an object, null or missing, a plural
linked field's is an array of objects and nulls, null or missing; a scalar
where a link is expected is the ShapeError of §7. -/
def wsSel (vars : Variables) (fields : List (String × JsonValue))
    (sel : Selection) : Bool :=
  match sel with
  | .scalarField _ _ _ => true
  | .linkedField name al _ sels =>
      match alookup fields (responseKey name al) with
      | none => true
      | some .null => true
      | some (.obj cfields) => hasActive vars sels && wsObj vars cfields sels
      | some _ => false
  | .pluralLinkedField name al _ sels =>
      match alookup fields (responseKey name al) with
      | none => true
      | some .null => true
      | some (.arr elems) => wsElems vars elems sels
      | some _ => false
  | .condition pv vn sels =>
      if conditionPasses vars pv vn then wsSels vars fields sels else true
termination_by (sizeOf sel, 0, 0)

/-- Shape check of a selection list against one response object. -/
def wsSels (vars : Variables) (fields : List (String × JsonValue))
    (l : List Selection) : Bool :=
  match l with
  | [] => true
  | s :: rest => wsSel vars fields s && wsSels vars fields rest
termination_by (sizeOf l, 0, 0)

/-- Shape check of a plural linked field's response elements. -/
def wsElems (vars : Variables) (elems : List JsonValue)
    (sels : List Selection) : Bool :=
  match elems with
  | [] => true
  | .null :: rest => wsElems vars rest sels
  | .obj cfields :: rest =>
      hasActive vars sels && wsObj vars cfields sels && wsElems vars rest sels
  | _ :: rest => false
termination_by (sizeOf sels, 2, elems.length)

/-- Shape check of one response object against its selections: unique keys,
every key populated by an active selection, and each selection
shape-matched. -/
def wsObj (vars : Variables) (cfields : List (String × JsonValue))
    (sels : List Selection) : Bool :=
  decide ((cfields.map Prod.fst).Nodup) &&
    cfields.all (fun p => (activeRespKeys vars sels).contains p.1) &&
    wsSels vars cfields sels
termination_by (sizeOf sels, 1, 0)
end

/-- Modelled from the spec: the whole response shape-matches the selector —
§4.3's implicit precondition and §7's ShapeError-free condition. -/
def wellShaped (sel : Selector) (resp : List (String × JsonValue)) : Bool :=
  wsObj sel.vars resp sel.node

/-! ## Reader (spec §4.4, component C4) -/

/-- Merge later data fields over earlier ones (JS object writes). -/
def mergeData (d1 d2 : List (String × JsonValue)) :
    List (String × JsonValue) :=
  d2.foldl (fun acc p => aset acc p.1 p.2) d1

mutual
/-- Modelled from the spec: read one selection from a record, producing the
data fields it contributes, the DataIDs visited (dangling references
included), and the missing-data flag (§4.4): UNKNOWN targets leave the
subtree undefined and set `isMissingData`, NONEXISTENT targets read as
null, `UNDEFINED` cells and absent cells are missing data. -/
def readSel (s : RecordSource) (vars : Variables) (r : Record)
    (sel : Selection) : List (String × JsonValue) × List DataID × Bool :=
  match sel with
  | .scalarField name al args =>
      match alookup r (getStorageKey name args vars) with
      | some (.scalar v) => ([(responseKey name al, v)], [], false)
      | _ => ([], [], true)
  | .linkedField name al args sels =>
      match alookup r (getStorageKey name args vars) with
      | some (.scalar .null) => ([(responseKey name al, .null)], [], false)
      | some (.ref cid) =>
          match s.get cid with
          | some (some cr) =>
              let res := readSels s vars cr sels
              ([(responseKey name al, .obj res.1)], cid :: res.2.1, res.2.2)
          | some none => ([(responseKey name al, .null)], [cid], false)
          | none => ([], [cid], true)
      | _ => ([], [], true)
  | .pluralLinkedField name al args sels =>
      match alookup r (getStorageKey name args vars) with
      | some (.scalar .null) => ([(responseKey name al, .null)], [], false)
      | some (.refs ids) =>
          let res := readRefs s vars ids sels
          ([(responseKey name al, .arr res.1)], res.2.1, res.2.2)
      | _ => ([], [], true)
  | .condition pv vn sels =>
      if conditionPasses vars pv vn then readSels s vars r sels
      else ([], [], false)
termination_by (sizeOf sel, 0, 0)

/-- Read a selection list from a record, merging the data fields in
traversal order (§4.4). -/
def readSels (s : RecordSource) (vars : Variables) (r : Record)
    (l : List Selection) : List (String × JsonValue) × List DataID × Bool :=
  match l with
  | [] => ([], [], false)
  | sel :: rest =>
      let a := readSel s vars r sel
      let b := readSels s vars r rest
      (mergeData a.1 b.1, a.2.1 ++ b.2.1, a.2.2 || b.2.2)
termination_by (sizeOf l, 0, 0)

/-- Read the elements of a plural linked reference (§4.4): null entries
read as null, NONEXISTENT targets as null, UNKNOWN targets as null with
`isMissingData` set. -/
def readRefs (s : RecordSource) (vars : Variables) (ids : List (Option DataID))
    (sels : List Selection) : List JsonValue × List DataID × Bool :=
  match ids with
  | [] => ([], [], false)
  | none :: rest =>
      let b := readRefs s vars rest sels
      (.null :: b.1, b.2.1, b.2.2)
  | some cid :: rest =>
      let b := readRefs s vars rest sels
      match s.get cid with
      | some (some cr) =>
          let a := readSels s vars cr sels
          (.obj a.1 :: b.1, cid :: (a.2.1 ++ b.2.1), a.2.2 || b.2.2)
      | some none => (.null :: b.1, cid :: b.2.1, b.2.2)
      | none => (.null :: b.1, cid :: b.2.1, true)
termination_by (sizeOf sels, 1, ids.length)
end

/-- Modelled from the spec: `read(source, selector) → Snapshot` (§4.4); the
root record is looked up and its selections read; an UNKNOWN root gives no
data and missing data, a NONEXISTENT root gives null data. -/
def readSelector (s : RecordSource) (sel : Selector) : Snapshot :=
  match s.get sel.dataID with
  | some (some r) =>
      let res := readSels s sel.vars r sel.node
      ⟨sel, some res.1, sel.dataID :: res.2.1, res.2.2⟩
  | some none => ⟨sel, none, [sel.dataID], false⟩
  | none => ⟨sel, none, [sel.dataID], true⟩

/-- Modelled from the spec: `Store.lookup(selector)` delegates to the
reader over the base source (§4.7). -/
def Store.lookup (st : Store) (sel : Selector) : Snapshot :=
  readSelector st.base sel

/-- Claim C7: Normalizer idempotence.  Normalizing the same `(response,
selector)` twice into the same source produces the same source as
normalizing it once, and an individual normalization write whose cell
already holds the written value is a no-op on the source. -/
theorem normalize_idempotent (s : RecordSource) (sel : Selector)
    (resp : List (String × JsonValue)) :
    normalizeResponse (normalizeResponse s sel resp) sel resp =
      normalizeResponse s sel resp ∧
    (∀ (t : RecordSource) (w : NWrite),
      getCell t w.id w.key = some w.value → applyWrite t w = t) :=
  ⟨applyWrites_idem (normSels sel.vars sel.dataID resp sel.node) s,
    fun t w h => applyWrite_eq_self t w h⟩

/-- Witness for claim C7: the no-op conjunct at a concrete store already
holding `name = "Zuck"` on record `4`, via the claim theorem. -/
theorem normalize_idempotent_witness :
    getCell ⟨[("4", some [("name", FieldValue.scalar (JsonValue.str "Zuck"))])]⟩
        "4" "name" = some (FieldValue.scalar (JsonValue.str "Zuck")) ∧
    applyWrite ⟨[("4", some [("name", FieldValue.scalar (JsonValue.str "Zuck"))])]⟩
        ⟨"4", "name", FieldValue.scalar (JsonValue.str "Zuck")⟩ =
      ⟨[("4", some [("name", FieldValue.scalar (JsonValue.str "Zuck"))])]⟩ :=
  ⟨by decide,
    (normalize_idempotent RecordSource.empty ⟨"client:root", [], []⟩ []).2
      ⟨[("4", some [("name", FieldValue.scalar (JsonValue.str "Zuck"))])]⟩
      ⟨"4", "name", FieldValue.scalar (JsonValue.str "Zuck")⟩ (by decide)⟩

/-! ## Publish atomicity on error (spec §7, claim C6) -/

/-- Modelled from the spec: the error a publish can throw — a payload
shape conflicting with the selection (ShapeError, §7). -/
inductive PublishError where
  | shapeError
deriving DecidableEq, Repr

/-- Modelled from the spec: normalize a server payload into a fresh
overlay source; a shape conflict throws and the overlay is discarded
(§7, §4.6 step 1). -/
def normalizePayloadExc (sel : Selector) (resp : List (String × JsonValue)) :
    Except PublishError RecordSource :=
  if wellShaped sel resp then
    .ok (normalizeResponse RecordSource.empty sel resp)
  else
    .error .shapeError

/-- Modelled from the spec: commit a server payload to the store —
normalize into a fresh overlay, then merge the overlay into the base;
when normalization throws, the store is left as it was and the error is
reported (§7 propagation policy). -/
def Store.commitPayload (st : Store) (sel : Selector)
    (resp : List (String × JsonValue)) : Store × Option PublishError :=
  match normalizePayloadExc sel resp with
  | .ok overlay => (st.publish overlay, none)
  | .error e => (st, some e)

/-- Claim C6: Publish atomicity on error.  Whenever committing a payload
throws (a ShapeError), the store — in particular its base record source —
is unchanged: no partial writes from the failed publish are retained. -/
theorem commitPayload_atomic_on_error (st : Store) (sel : Selector)
    (resp : List (String × JsonValue)) (e : PublishError)
    (h : (st.commitPayload sel resp).2 = some e) :
    (st.commitPayload sel resp).1 = st ∧
      (st.commitPayload sel resp).1.base = st.base := by
  unfold Store.commitPayload at h ⊢
  cases hn : normalizePayloadExc sel resp with
  | ok overlay =>
      rw [hn] at h
      cases h
  | error e0 => exact ⟨rfl, rfl⟩

/-- Witness for claim C6: a payload whose `user` field is a scalar where a
link is expected (ShapeError) leaves a concrete store's base unchanged. -/
theorem commitPayload_atomic_on_error_witness :
    ((Store.mk ⟨[("client:root",
        some [("user", FieldValue.ref "4")])]⟩ [] [] []).commitPayload
      ⟨"client:root", [.linkedField "user" none []
        [.scalarField "id" none []]], []⟩
      [("user", JsonValue.num 5)]).2 = some PublishError.shapeError ∧
    ((Store.mk ⟨[("client:root",
        some [("user", FieldValue.ref "4")])]⟩ [] [] []).commitPayload
      ⟨"client:root", [.linkedField "user" none []
        [.scalarField "id" none []]], []⟩
      [("user", JsonValue.num 5)]).1.base =
      ⟨[("client:root", some [("user", FieldValue.ref "4")])]⟩ := by
  have hshape : wellShaped
      ⟨"client:root", [.linkedField "user" none []
        [.scalarField "id" none []]], []⟩
      [("user", JsonValue.num 5)] = false := by
    simp [wellShaped, wsObj, wsSels, wsSel, alookup, responseKey,
      activeRespKeys, hasActive]
  have hres : ((Store.mk ⟨[("client:root",
      some [("user", FieldValue.ref "4")])]⟩ [] [] []).commitPayload
      ⟨"client:root", [.linkedField "user" none []
        [.scalarField "id" none []]], []⟩
      [("user", JsonValue.num 5)]).2 = some PublishError.shapeError := by
    unfold Store.commitPayload normalizePayloadExc
    rw [hshape]
    rfl
  refine ⟨hres, ?_⟩
  exact (commitPayload_atomic_on_error _ _ _ PublishError.shapeError hres).2

/-! ## Store.notify and subscriptions (spec §4.7, claim C4) -/

/-- Modelled from the spec: process one subscription during `notify()` —
when its `seenRecords` intersects `updatedRecordIDs`, re-read; when the new
snapshot's data differs, the callback fires with the new snapshot and the
subscription keeps it (§4.7).  The boolean reports whether the callback
fired. -/
def notifySubscription (base : RecordSource) (upd : List DataID)
    (sub : Subscription) : Subscription × Bool :=
  if sub.snapshot.seenRecords.any (fun i => decide (i ∈ upd)) then
    let snap2 := readSelector base sub.snapshot.selector
    if snap2.data = sub.snapshot.data then (sub, false) else (⟨snap2⟩, true)
  else (sub, false)

/-- Modelled from the spec: `notify()` — dispatch every subscription whose
dependencies changed, then clear `updatedRecordIDs` (§4.7).  The second
component lists the subscriptions whose callback was invoked. -/
def Store.notify (st : Store) : Store × List Subscription :=
  ({ st with
      subscriptions := st.subscriptions.map
        (fun sub => (notifySubscription st.base st.updatedRecordIDs sub).1),
      updatedRecordIDs := [] },
    st.subscriptions.filter
      (fun sub => (notifySubscription st.base st.updatedRecordIDs sub).2))

/-- Modelled from the spec: `subscribe(snapshot, cb)` adds a
subscription (§4.7). -/
def Store.subscribe (st : Store) (snap : Snapshot) : Store :=
  { st with subscriptions := st.subscriptions ++ [⟨snap⟩] }

theorem alookup_eq_none_of_not_mem {K V : Type} [DecidableEq K]
    (l : List (K × V)) (k : K) (h : k ∉ l.map Prod.fst) :
    alookup l k = none := by
  induction l with
  | nil => rfl
  | cons p t ih =>
      obtain ⟨k0, v0⟩ := p
      simp only [List.map_cons, List.mem_cons] at h
      push_neg at h
      rw [alookup_cons_ne t k0 k v0 (Ne.symm h.1), ih h.2]

/-- Claim C4: Notify minimality.  From a quiescent store (no pending
updated ids), after `publish(s)`, a subscriber whose snapshot's
`seenRecords` is disjoint from the ids of `s` is not invoked by the
subsequent `notify()`: its callback flag is false and it is not among the
invoked subscriptions. -/
theorem notify_minimality (st : Store) (s : RecordSource) (sub : Subscription)
    (hq : st.updatedRecordIDs = [])
    (hdisj : ∀ i ∈ sub.snapshot.seenRecords, i ∉ s.getRecordIDs) :
    notifySubscription (st.publish s).base (st.publish s).updatedRecordIDs sub
        = (sub, false) ∧
      sub ∉ ((st.publish s).notify).2 := by
  have hguard : sub.snapshot.seenRecords.any
      (fun i => decide (i ∈ (st.publish s).updatedRecordIDs)) = false := by
    rw [List.any_eq_false]
    intro i hi
    have hnot := hdisj i hi
    have hframe := publish_frame s.recs st i hnot
    simp only [decide_eq_true_eq]
    intro hmem
    have : i ∈ st.updatedRecordIDs := (hframe.2).mp hmem
    rw [hq] at this
    cases this
  have hres : notifySubscription (st.publish s).base
      (st.publish s).updatedRecordIDs sub = (sub, false) := by
    unfold notifySubscription
    rw [hguard]
    rfl
  refine ⟨hres, ?_⟩
  intro hmem
  rw [Store.notify] at hmem
  simp only [List.mem_filter] at hmem
  rw [hres] at hmem
  simp at hmem

/-- Witness for claim C4: a subscriber that saw only record `4` is not
invoked after publishing a source that writes only record `7`. -/
theorem notify_minimality_witness :
    (∀ i ∈ (Subscription.mk ⟨⟨"client:root", [], []⟩, none, ["4"], false⟩).snapshot.seenRecords,
      i ∉ (RecordSource.mk
        [("7", some [("x", FieldValue.scalar (JsonValue.num 1))])]).getRecordIDs) ∧
    (Subscription.mk ⟨⟨"client:root", [], []⟩, none, ["4"], false⟩) ∉
      (((Store.mk ⟨[]⟩ []
          [⟨⟨⟨"client:root", [], []⟩, none, ["4"], false⟩⟩] []).publish
        (RecordSource.mk
          [("7", some [("x", FieldValue.scalar (JsonValue.num 1))])])).notify).2 :=
  ⟨by decide,
    (notify_minimality
      (Store.mk ⟨[]⟩ []
        [⟨⟨⟨"client:root", [], []⟩, none, ["4"], false⟩⟩] [])
      (RecordSource.mk
        [("7", some [("x", FieldValue.scalar (JsonValue.num 1))])])
      (Subscription.mk ⟨⟨"client:root", [], []⟩, none, ["4"], false⟩)
      rfl (by decide)).2⟩

/-! ## Environment, publish queue and optimistic updates (spec §4.6,
claim C2) -/

/-- Modelled from the spec: an optimistic update's effect on an overlay
source — user updaters are arbitrary source transformers applied through a
proxy (§4.6, §4.8). -/
def StoreUpdater : Type := RecordSource → RecordSource

/-- Modelled from the spec: an Environment owns one Store and one publish
queue: staged server payloads (FIFO) and the live optimistic updates, each
with a disposal handle (§4.6). -/
structure Environment where
  store : Store
  pendingPayloads : List RecordSource
  optimisticUpdates : List (Nat × StoreUpdater)
  nextID : Nat

/-- Modelled from the spec: `applyUpdate(u)` registers a revocable
optimistic update and returns its disposal handle (§4.6,
`Environment.applyUpdate` in RelayStoreTypes). -/
def Environment.applyUpdate (env : Environment) (u : StoreUpdater) :
    Environment × Nat :=
  ({ env with
      optimisticUpdates := env.optimisticUpdates ++ [(env.nextID, u)],
      nextID := env.nextID + 1 },
    env.nextID)

/-- Modelled from the spec: disposing an optimistic update removes it from
the set (§4.6 optimistic revert). -/
def Environment.dispose (env : Environment) (h : Nat) : Environment :=
  { env with
      optimisticUpdates := env.optimisticUpdates.filter fun p => p.1 != h }

/-- Modelled from the spec: stage a server payload source (§4.6). -/
def Environment.publish (env : Environment) (p : RecordSource) : Environment :=
  { env with pendingPayloads := env.pendingPayloads ++ [p] }

/-- Modelled from the spec: `run()` step 1–2 — apply staged server payloads
to the store base in FIFO order and clear the queue (§4.6). -/
def Environment.runQueue (env : Environment) : Environment :=
  { env with
      store := env.pendingPayloads.foldl Store.publish env.store,
      pendingPayloads := [] }

/-- Modelled from the spec: `notify()` implies a `run()`: drain the queue
into the base, then dispatch store notifications (§4.6, §4.7). -/
def Environment.notify (env : Environment) : Environment :=
  { env.runQueue with store := (env.runQueue.store.notify).1 }

/-- Modelled from the spec: the visible (optimistic) source — the base
overlaid with every live optimistic update, reapplied in their original
order each cycle (§4.6 step 3). -/
def Environment.optimisticSource (env : Environment) : RecordSource :=
  env.optimisticUpdates.foldl (fun src p => p.2 src) env.store.base

/-- Claim C2: Optimistic revert.  For every environment whose optimistic
handles are below `nextID` (an invariant of every reachable environment),
every optimistic update `u` and server payload `p`, the schedule
`applyUpdate(u); publish(p); notify(); dispose(u); notify()` leaves the
store's record state — base source, visible optimistic source, pending
queue, live update set and pending updated ids — equal to that of
`publish(p); notify()` alone. -/
theorem optimistic_revert (env : Environment) (u : StoreUpdater)
    (p : RecordSource)
    (hfresh : ∀ q ∈ env.optimisticUpdates, q.1 < env.nextID) :
    ((((env.applyUpdate u).1.publish p).notify.dispose
        (env.applyUpdate u).2).notify.store.base =
      (env.publish p).notify.store.base) ∧
    ((((env.applyUpdate u).1.publish p).notify.dispose
        (env.applyUpdate u).2).notify.optimisticSource =
      (env.publish p).notify.optimisticSource) ∧
    ((((env.applyUpdate u).1.publish p).notify.dispose
        (env.applyUpdate u).2).notify.optimisticUpdates =
      (env.publish p).notify.optimisticUpdates) ∧
    ((((env.applyUpdate u).1.publish p).notify.dispose
        (env.applyUpdate u).2).notify.pendingPayloads =
      (env.publish p).notify.pendingPayloads) ∧
    ((((env.applyUpdate u).1.publish p).notify.dispose
        (env.applyUpdate u).2).notify.store.updatedRecordIDs =
      (env.publish p).notify.store.updatedRecordIDs) := by
  have hfilter : (env.optimisticUpdates ++ [(env.nextID, u)]).filter
      (fun q => q.1 != env.nextID) = env.optimisticUpdates := by
    rw [List.filter_append]
    have h1 : env.optimisticUpdates.filter (fun q => q.1 != env.nextID) =
        env.optimisticUpdates := by
      rw [List.filter_eq_self]
      intro q hq
      have := hfresh q hq
      simp only [bne_iff_ne, ne_eq]
      omega
    have h2 : ([(env.nextID, u)] : List (Nat × StoreUpdater)).filter
        (fun q => q.1 != env.nextID) = [] := by
      simp [List.filter]
    rw [h1, h2, List.append_nil]
  refine ⟨?_, ?_, ?_, ?_, ?_⟩ <;>
    simp [Environment.applyUpdate, Environment.publish, Environment.notify,
      Environment.runQueue, Environment.dispose, Environment.optimisticSource,
      Store.notify, hfilter]

/-- Witness for claim C2 at a concrete environment: an empty store, an
optimistic update writing `name = "Mark"` on record `4`, and a payload
writing `name = "Zuckerberg"`. -/
theorem optimistic_revert_witness :
    (∀ q ∈ (Environment.mk (Store.mk ⟨[]⟩ [] [] []) [] [] 0).optimisticUpdates,
      q.1 < (Environment.mk (Store.mk ⟨[]⟩ [] [] []) [] [] 0).nextID) ∧
    ((((Environment.mk (Store.mk ⟨[]⟩ [] [] []) [] [] 0).applyUpdate
          (fun s => applyWrite s
            ⟨"4", "name", FieldValue.scalar (JsonValue.str "Mark")⟩)).1.publish
        ⟨[("4", some [("name",
          FieldValue.scalar (JsonValue.str "Zuckerberg"))])]⟩).notify.dispose
      ((Environment.mk (Store.mk ⟨[]⟩ [] [] []) [] [] 0).applyUpdate
        (fun s => applyWrite s
          ⟨"4", "name", FieldValue.scalar (JsonValue.str "Mark")⟩)).2).notify.store.base =
    ((Environment.mk (Store.mk ⟨[]⟩ [] [] []) [] [] 0).publish
      ⟨[("4", some [("name",
        FieldValue.scalar (JsonValue.str "Zuckerberg"))])]⟩).notify.store.base :=
  ⟨by simp,
    (optimistic_revert (Environment.mk (Store.mk ⟨[]⟩ [] [] []) [] [] 0)
      (fun s => applyWrite s
        ⟨"4", "name", FieldValue.scalar (JsonValue.str "Mark")⟩)
      ⟨[("4", some [("name",
        FieldValue.scalar (JsonValue.str "Zuckerberg"))])]⟩
      (by simp)).1⟩

/-! ## Retention and garbage collection (spec §4.7, claim C8) -/

/-- Modelled from the spec: the reserved root id (§3.1). -/
def rootID : DataID := "client:root"

/-- Modelled from the spec: `retain(selector)` registers a retainer; GC
reclaims only records unreachable from live retainers (§4.7). -/
def Store.retain (st : Store) (sel : Selector) : Store :=
  { st with retainers := st.retainers ++ [sel] }

/-- Modelled from the spec: GC mark phase — seed with the root id and read
every retained selector; every id visited by those reads is reachable
(§4.7 garbage collection steps 1–2). -/
def reachableIDs (st : Store) : List DataID :=
  rootID :: st.retainers.flatMap fun sel => (readSelector st.base sel).seenRecords

/-- Modelled from the spec: GC sweep phase — remove from the base every id
not reachable (§4.7 step 3). -/
def Store.gc (st : Store) : Store :=
  { st with
      base := ⟨st.base.recs.filter fun e => (reachableIDs st).contains e.1⟩ }

/-- Counterexample to claim C8 as stated: retaining a selector does not
fetch its data, so over an empty store the retained selector's read sees
the root id while its status is still UNKNOWN. -/
theorem retention_unknown_counterexample :
    "client:root" ∈
      (((Store.mk ⟨[]⟩ [] [] []).retain
          ⟨"client:root", [.scalarField "me" none []], []⟩).lookup
        ⟨"client:root", [.scalarField "me" none []], []⟩).seenRecords ∧
    ((Store.mk ⟨[]⟩ [] [] []).retain
        ⟨"client:root", [.scalarField "me" none []], []⟩).base.getStatus
      "client:root" = RecordState.UNKNOWN := by
  constructor
  · show "client:root" ∈ (readSelector ⟨[]⟩
      ⟨"client:root", [.scalarField "me" none []], []⟩).seenRecords
    simp [readSelector, RecordSource.get, alookup]
  · rfl

theorem alookup_filter_of_keep {K V : Type} [DecidableEq K]
    (l : List (K × V)) (k : K) (p : K × V → Bool)
    (hkeep : ∀ v, p (k, v) = true) :
    alookup (l.filter p) k = alookup l k := by
  induction l with
  | nil => rfl
  | cons e t ih =>
      obtain ⟨k0, v0⟩ := e
      by_cases hk : k0 = k
      · subst hk
        rw [List.filter_cons, hkeep v0]
        simp only [if_pos trivial]
        rw [alookup_cons_self, alookup_cons_self]
      · rw [List.filter_cons]
        cases hp : p (k0, v0) with
        | true =>
            simp only [if_pos trivial]
            rw [alookup_cons_ne _ _ _ _ hk, alookup_cons_ne _ _ _ _ hk, ih]
        | false =>
            simp only [Bool.false_eq_true, if_neg (fun h => h)]
            rw [alookup_cons_ne _ _ _ _ hk, ih]

/-- Claim C8 (amended): Retention soundness.  While a retainer for `sel` is
live, every DataID in `read(sel).seenRecords` — every record reachable from
the retained selector via linked references and field selections — is
untouched by GC: its record entry and its status are unchanged, so an id
whose status is not UNKNOWN keeps a status that is not UNKNOWN.  (As
stated the claim also asserted status ≠ UNKNOWN right after `retain`,
which is false since retain does not fetch; see the counterexample.) -/
theorem retention_sound (st : Store) (sel : Selector) (i : DataID)
    (hret : sel ∈ st.retainers)
    (hseen : i ∈ (st.lookup sel).seenRecords) :
    st.gc.base.get i = st.base.get i ∧
    st.gc.base.getStatus i = st.base.getStatus i ∧
    (st.base.getStatus i ≠ RecordState.UNKNOWN →
      st.gc.base.getStatus i ≠ RecordState.UNKNOWN) := by
  have hreach : i ∈ reachableIDs st := by
    unfold reachableIDs
    right
    exact List.mem_flatMap.mpr ⟨sel, hret, hseen⟩
  have hget : st.gc.base.get i = st.base.get i := by
    show alookup (st.base.recs.filter fun e => (reachableIDs st).contains e.1) i
      = alookup st.base.recs i
    apply alookup_filter_of_keep
    intro v
    simp only [List.contains_eq_any_beq, List.any_eq_true, beq_iff_eq]
    exact ⟨i, hreach, rfl⟩
  refine ⟨hget, ?_, ?_⟩
  · unfold RecordSource.getStatus
    rw [hget]
  · intro h
    unfold RecordSource.getStatus at *
    rw [hget]
    exact h

/-- Witness for claim C8's amended theorem at a concrete store: the root
record is retained and GC leaves its entry unchanged. -/
theorem retention_sound_witness :
    (⟨"client:root", [], []⟩ : Selector) ∈
      (Store.mk ⟨[("client:root",
        some [("x", FieldValue.scalar (JsonValue.num 1))])]⟩ [] []
        [⟨"client:root", [], []⟩]).retainers ∧
    "client:root" ∈
      ((Store.mk ⟨[("client:root",
        some [("x", FieldValue.scalar (JsonValue.num 1))])]⟩ [] []
        [⟨"client:root", [], []⟩]).lookup ⟨"client:root", [], []⟩).seenRecords ∧
    (Store.mk ⟨[("client:root",
        some [("x", FieldValue.scalar (JsonValue.num 1))])]⟩ [] []
        [⟨"client:root", [], []⟩]).gc.base.get "client:root" =
      (Store.mk ⟨[("client:root",
        some [("x", FieldValue.scalar (JsonValue.num 1))])]⟩ [] []
        [⟨"client:root", [], []⟩]).base.get "client:root" :=
  ⟨by simp,
    by simp [Store.lookup, readSelector, RecordSource.get, alookup],
    (retention_sound
      (Store.mk ⟨[("client:root",
        some [("x", FieldValue.scalar (JsonValue.num 1))])]⟩ [] []
        [⟨"client:root", [], []⟩])
      ⟨"client:root", [], []⟩ "client:root" (by simp)
      (by simp [Store.lookup, readSelector, RecordSource.get, alookup])).1⟩

/-! ## RelayFileWriter: codegen directory caching (claim C9)

Embedded from `src/packages/relay-compiler/codegen/RelayFileWriter.js`,
`writeAll` (lines 128–140 and 171–184).  CodegenDirectory objects are
numbered by creation order so object identity is visible;
`allOutputDirectories` is the JS Map from path to directory object,
`definitionsMeta` maps a definition name to its source directory
(`path.join(baseDir, path.dirname(filePath))`). -/
structure WriterState where
  allOutputDirectories : List (String × Nat)
  nextDirObject : Nat
  configOutputDirectory : Option Nat
  definitionsMeta : List (String × String)
deriving DecidableEq, Repr

/-- Embedded from RelayFileWriter.js lines 129–135: `addCodegenDir` creates
a new CodegenDirectory for the path and registers it in
`allOutputDirectories`. -/
def addCodegenDir (st : WriterState) (dirPath : String) : Nat × WriterState :=
  (st.nextDirObject,
    { st with
        allOutputDirectories :=
          aset st.allOutputDirectories dirPath st.nextDirObject,
        nextDirObject := st.nextDirObject + 1 })

/-- Embedded from RelayFileWriter.js lines 171–184:
`getGeneratedDirectory(definitionName)` returns the config output
directory when one exists; otherwise it computes
`path.join(getDefinitionMeta(definitionName).dir, '__generated__')` and
returns the cached CodegenDirectory for that path, creating one only when
absent.  `getDefinitionMeta` throws (invariant, lines 119–127) for an
unknown name: `none`. -/
def getGeneratedDirectory (st : WriterState) (definitionName : String) :
    Option (Nat × WriterState) :=
  match st.configOutputDirectory with
  | some d => some (d, st)
  | none =>
      match alookup st.definitionsMeta definitionName with
      | none => none
      | some dir =>
          match alookup st.allOutputDirectories (dir ++ "/__generated__") with
          | some cachedDir => some (cachedDir, st)
          | none => some (addCodegenDir st (dir ++ "/__generated__"))

theorem aset_map_fst {K V : Type} [DecidableEq K] (l : List (K × V)) (k : K)
    (v : V) :
    (aset l k v).map Prod.fst =
      if (alookup l k).isSome then l.map Prod.fst else l.map Prod.fst ++ [k] := by
  induction l with
  | nil => simp [aset, alookup]
  | cons p t ih =>
      obtain ⟨k0, v0⟩ := p
      by_cases h : k0 = k
      · subst h
        simp [aset, alookup]
      · simp only [aset, if_neg h, List.map_cons, alookup, ih]
        by_cases hs : (alookup t k).isSome
        · simp [h, hs]
        · simp [h, hs]

theorem alookup_isSome_of_mem_keys {K V : Type} [DecidableEq K]
    (l : List (K × V)) (k : K) (h : k ∈ l.map Prod.fst) :
    (alookup l k).isSome := by
  induction l with
  | nil => cases h
  | cons p t ih =>
      obtain ⟨k0, v0⟩ := p
      by_cases hk : k0 = k
      · simp [alookup, hk]
      · rcases List.mem_cons.mp h with he | ht
        · simp only at he
          exact absurd he.symm hk
        · rw [alookup_cons_ne t k0 k v0 hk]
          exact ih ht

theorem aset_keys_nodup {K V : Type} [DecidableEq K] (l : List (K × V))
    (k : K) (v : V) (h : (l.map Prod.fst).Nodup) :
    ((aset l k v).map Prod.fst).Nodup := by
  rw [aset_map_fst]
  by_cases hs : (alookup l k).isSome
  · simp [hs, h]
  · have hnm : k ∉ l.map Prod.fst := fun hmem =>
      hs (alookup_isSome_of_mem_keys l k hmem)
    simp [hs, List.nodup_append, h, hnm]

theorem getGeneratedDirectory_config (st : WriterState) (n : String) (d : Nat)
    (h : st.configOutputDirectory = some d) :
    getGeneratedDirectory st n = some (d, st) := by
  unfold getGeneratedDirectory
  rw [h]

theorem getGeneratedDirectory_cached (st : WriterState) (n dir : String)
    (cd : Nat) (h : st.configOutputDirectory = none)
    (hm : alookup st.definitionsMeta n = some dir)
    (hc : alookup st.allOutputDirectories (dir ++ "/__generated__") = some cd) :
    getGeneratedDirectory st n = some (cd, st) := by
  unfold getGeneratedDirectory
  rw [h, hm]
  show (match alookup st.allOutputDirectories (dir ++ "/__generated__") with
    | some cachedDir => some (cachedDir, st)
    | none => some (addCodegenDir st (dir ++ "/__generated__"))) = some (cd, st)
  rw [hc]

theorem getGeneratedDirectory_create (st : WriterState) (n dir : String)
    (h : st.configOutputDirectory = none)
    (hm : alookup st.definitionsMeta n = some dir)
    (hc : alookup st.allOutputDirectories (dir ++ "/__generated__") = none) :
    getGeneratedDirectory st n =
      some (addCodegenDir st (dir ++ "/__generated__")) := by
  unfold getGeneratedDirectory
  rw [h, hm]
  show (match alookup st.allOutputDirectories (dir ++ "/__generated__") with
    | some cachedDir => some (cachedDir, st)
    | none => some (addCodegenDir st (dir ++ "/__generated__"))) =
    some (addCodegenDir st (dir ++ "/__generated__"))
  rw [hc]

/-- Claim C9: RelayFileWriter directory caching.  When the writer config
specifies `outputDir` (a config output directory object exists),
`getGeneratedDirectory` returns that one directory for every definition
name, with the state unchanged.  When it is absent, after a first call for
a definition in some source directory, a call for any definition of the
same source directory returns the identical cached CodegenDirectory object
and does not create another.  In all cases at most one CodegenDirectory
exists per path: uniqueness of `allOutputDirectories` keys is preserved. -/
theorem getGeneratedDirectory_caching (st : WriterState) (n1 n2 : String) :
    (∀ d, st.configOutputDirectory = some d →
      getGeneratedDirectory st n1 = some (d, st)) ∧
    (st.configOutputDirectory = none →
      ∀ dir, alookup st.definitionsMeta n1 = some dir →
        alookup st.definitionsMeta n2 = some dir →
        ∀ r1, getGeneratedDirectory st n1 = some r1 →
          getGeneratedDirectory r1.2 n2 = some (r1.1, r1.2)) ∧
    ((st.allOutputDirectories.map Prod.fst).Nodup →
      ∀ r, getGeneratedDirectory st n1 = some r →
        (r.2.allOutputDirectories.map Prod.fst).Nodup) := by
  refine ⟨?_, ?_, ?_⟩
  · intro d hd
    exact getGeneratedDirectory_config st n1 d hd
  · intro hnone dir h1 h2 r1 hr1
    cases hc : alookup st.allOutputDirectories (dir ++ "/__generated__") with
    | some cachedDir =>
        rw [getGeneratedDirectory_cached st n1 dir cachedDir hnone h1 hc] at hr1
        injection hr1 with hr1
        subst hr1
        exact getGeneratedDirectory_cached st n2 dir cachedDir hnone h2 hc
    | none =>
        rw [getGeneratedDirectory_create st n1 dir hnone h1 hc] at hr1
        injection hr1 with hr1
        subst hr1
        apply getGeneratedDirectory_cached
        · exact hnone
        · exact h2
        · exact alookup_aset_self _ _ _
  · intro hnd r hr
    cases hco : st.configOutputDirectory with
    | some d =>
        rw [getGeneratedDirectory_config st n1 d hco] at hr
        injection hr with hr
        subst hr
        exact hnd
    | none =>
        cases hm : alookup st.definitionsMeta n1 with
        | none =>
            unfold getGeneratedDirectory at hr
            rw [hco, hm] at hr
            cases hr
        | some dir =>
            cases hc : alookup st.allOutputDirectories
                (dir ++ "/__generated__") with
            | some cachedDir =>
                rw [getGeneratedDirectory_cached st n1 dir cachedDir hco hm hc]
                  at hr
                injection hr with hr
                subst hr
                exact hnd
            | none =>
                rw [getGeneratedDirectory_create st n1 dir hco hm hc] at hr
                injection hr with hr
                subst hr
                exact aset_keys_nodup st.allOutputDirectories _ _ hnd

/-- Witness for claim C9: with no config outputDir, two definitions in the
same source directory share one cached CodegenDirectory. -/
theorem getGeneratedDirectory_caching_witness :
    ((WriterState.mk [] 0 none
        [("Q1", "a/b"), ("Q2", "a/b")]).configOutputDirectory = none) ∧
    (alookup (WriterState.mk [] 0 none
        [("Q1", "a/b"), ("Q2", "a/b")]).definitionsMeta "Q1" = some "a/b") ∧
    (alookup (WriterState.mk [] 0 none
        [("Q1", "a/b"), ("Q2", "a/b")]).definitionsMeta "Q2" = some "a/b") ∧
    (getGeneratedDirectory (WriterState.mk [] 0 none
        [("Q1", "a/b"), ("Q2", "a/b")]) "Q1" =
      some (0, WriterState.mk [("a/b/__generated__", 0)] 1 none
        [("Q1", "a/b"), ("Q2", "a/b")])) ∧
    getGeneratedDirectory (WriterState.mk [("a/b/__generated__", 0)] 1 none
        [("Q1", "a/b"), ("Q2", "a/b")]) "Q2" =
      some (0, WriterState.mk [("a/b/__generated__", 0)] 1 none
        [("Q1", "a/b"), ("Q2", "a/b")]) :=
  ⟨rfl, by decide, by decide, by decide,
    (getGeneratedDirectory_caching (WriterState.mk [] 0 none
        [("Q1", "a/b"), ("Q2", "a/b")]) "Q1" "Q2").2.1
      rfl "a/b" (by decide) (by decide)
      (0, WriterState.mk [("a/b/__generated__", 0)] 1 none
        [("Q1", "a/b"), ("Q2", "a/b")]) (by decide)⟩

/-! ## RelayFileWriter: writeAll error wrapping (claim C10)

Embedded from `src/packages/relay-compiler/codegen/RelayFileWriter.js`,
`writeAll`'s catch block (lines 275–286).  `JSON.parse` is a JS builtin
(external collaborator), so the parse outcome of `error.message` is a
parameter. -/

/-- A JS Error as the catch block consumes it: `message` and optional
`stack`. -/
structure JsError where
  message : String
  stack : Option String
deriving DecidableEq, Repr

/-- JS truthiness of a JSON value (`details.message` in the condition). -/
def jsTruthy : JsonValue → Bool
  | .null => false
  | .bool b => b
  | .num n => n != 0
  | .str s => s != ""
  | .arr _ => true
  | .obj _ => true

mutual
/-- JS string coercion of a JSON value (the `+` concatenation in line
281). -/
def jsToString (v : JsonValue) : String :=
  match v with
  | .null => "null"
  | .bool true => "true"
  | .bool false => "false"
  | .num n => toString n
  | .str s => s
  | .arr xs => jsToStringList xs
  | .obj _ => "[object Object]"
termination_by (sizeOf v, 1)

/-- JS Array-to-string: elements joined with commas. -/
def jsToStringList (xs : List JsonValue) : String :=
  match xs with
  | [] => ""
  | [x] => jsToStringElem x
  | x :: y :: rest => jsToStringElem x ++ "," ++ jsToStringList (y :: rest)
termination_by (sizeOf xs, 0)

/-- JS Array join renders null elements as the empty string. -/
def jsToStringElem (v : JsonValue) : String :=
  match v with
  | .null => ""
  | v2 => jsToString v2
termination_by (sizeOf v + 1, 0)
end

/-- `String(error.stack || error)` (line 284): the stack when truthy, else
the Error's own string form `"Error: " + message`. -/
def jsErrorString (e : JsError) : String :=
  match e.stack with
  | some st => if st != "" then st else "Error: " ++ e.message
  | none => "Error: " ++ e.message

/-- Embedded from RelayFileWriter.js lines 275–285: given the parse result
of `error.message`, build the message of the re-thrown Error —
`'GraphQL error writing modules:\n' + details.message` when `details` is
an object with `name === 'GraphQL2Exception'` and a truthy `message`,
else `'Error writing modules:\n' + String(error.stack || error)`. -/
def wrapWriteError (details : Option JsonValue) (e : JsError) : String :=
  match details with
  | some (.obj fs) =>
      if alookup fs "name" = some (.str "GraphQL2Exception") then
        match alookup fs "message" with
        | some m =>
            if jsTruthy m then "GraphQL error writing modules:\n" ++ jsToString m
            else "Error writing modules:\n" ++ jsErrorString e
        | none => "Error writing modules:\n" ++ jsErrorString e
      else "Error writing modules:\n" ++ jsErrorString e
  | _ => "Error writing modules:\n" ++ jsErrorString e

/-- Embedded from RelayFileWriter.js lines 206–288: the try/catch around
the generation/writing phase — a successful phase returns its directories,
a failed phase always re-throws the wrapped error. -/
def writeAllCatch (phase : Except JsError (List (String × Nat)))
    (parse : String → Option JsonValue) :
    Except String (List (String × Nat)) :=
  match phase with
  | .ok dirs => .ok dirs
  | .error e => .error (wrapWriteError (parse e.message) e)

/-- The condition of line 280 as the code checks it: details is an object
with `name === 'GraphQL2Exception'` and a truthy `message`. -/
def graphqlExceptionCond (details : Option JsonValue) : Bool :=
  match details with
  | some (.obj fs) =>
      (alookup fs "name" = some (.str "GraphQL2Exception") : Bool) &&
        (match alookup fs "message" with
          | some m => jsTruthy m
          | none => false)
  | _ => false

/-- Counterexample to claim C10 as stated: an error whose message parses as
JSON with name 'GraphQL2Exception' and a `message` field that is present
but empty (falsy in JS) is wrapped with 'Error writing modules:', not
'GraphQL error writing modules:' — the code checks `details.message` for
truthiness, not mere presence. -/
theorem writeAll_error_wrapping_counterexample :
    (fun _ => some (JsonValue.obj
        [("name", JsonValue.str "GraphQL2Exception"),
          ("message", JsonValue.str "")])
      : String → Option JsonValue) "x" =
      some (JsonValue.obj
        [("name", JsonValue.str "GraphQL2Exception"),
          ("message", JsonValue.str "")]) ∧
    alookup [("name", JsonValue.str "GraphQL2Exception"),
        ("message", JsonValue.str "")] "message" =
      some (JsonValue.str "") ∧
    writeAllCatch (Except.error ⟨"x", none⟩)
        (fun _ => some (JsonValue.obj
          [("name", JsonValue.str "GraphQL2Exception"),
            ("message", JsonValue.str "")])) =
      Except.error ("Error writing modules:\n" ++ "Error: " ++ "x") := by
  refine ⟨rfl, by decide, ?_⟩
  rfl

/-- Claim C10 (amended): writeAll error wrapping.  Whenever the
generation/writing phase throws, `writeAll` does not return normally: it
re-throws an Error whose message begins with
`GraphQL error writing modules:` exactly when the original error's message
parses as JSON with name 'GraphQL2Exception' and a truthy `message` field,
and otherwise begins with `Error writing modules:`. -/
theorem wrapWriteError_obj (fs : List (String × JsonValue)) (e : JsError) :
    wrapWriteError (some (.obj fs)) e =
      if alookup fs "name" = some (.str "GraphQL2Exception") then
        match alookup fs "message" with
        | some m =>
            if jsTruthy m then "GraphQL error writing modules:\n" ++ jsToString m
            else "Error writing modules:\n" ++ jsErrorString e
        | none => "Error writing modules:\n" ++ jsErrorString e
      else "Error writing modules:\n" ++ jsErrorString e := rfl

/-- Claim C10 (amended): writeAll error wrapping.  Whenever the
generation/writing phase throws, `writeAll` does not return normally: it
re-throws an Error whose message begins with
`GraphQL error writing modules:` exactly when the original error's message
parses as JSON with name 'GraphQL2Exception' and a truthy `message` field,
and otherwise begins with `Error writing modules:`. -/
theorem writeAll_error_wrapping (phase : Except JsError (List (String × Nat)))
    (parse : String → Option JsonValue) (e : JsError)
    (h : phase = .error e) :
    writeAllCatch phase parse =
      .error (wrapWriteError (parse e.message) e) ∧
    (graphqlExceptionCond (parse e.message) = true →
      ∃ rest, wrapWriteError (parse e.message) e =
        "GraphQL error writing modules:\n" ++ rest) ∧
    (graphqlExceptionCond (parse e.message) = false →
      wrapWriteError (parse e.message) e =
        "Error writing modules:\n" ++ jsErrorString e) := by
  subst h
  refine ⟨rfl, ?_, ?_⟩
  · intro hc
    cases hd : parse e.message with
    | none =>
        rw [hd] at hc
        simp [graphqlExceptionCond] at hc
    | some v =>
        rw [hd] at hc
        cases v with
        | obj fs =>
            simp only [graphqlExceptionCond, Bool.and_eq_true,
              decide_eq_true_eq] at hc
            rw [wrapWriteError_obj, if_pos hc.1]
            cases hm : alookup fs "message" with
            | none =>
                rw [hm] at hc
                exact absurd hc.2 (by simp)
            | some m =>
                rw [hm] at hc
                have hc2 : jsTruthy m = true := hc.2
                show ∃ rest,
                  (if jsTruthy m = true then
                    "GraphQL error writing modules:\n" ++ jsToString m
                  else "Error writing modules:\n" ++ jsErrorString e) =
                  "GraphQL error writing modules:\n" ++ rest
                rw [if_pos hc2]
                exact ⟨jsToString m, rfl⟩
        | null => simp [graphqlExceptionCond] at hc
        | bool b => simp [graphqlExceptionCond] at hc
        | num n => simp [graphqlExceptionCond] at hc
        | str s => simp [graphqlExceptionCond] at hc
        | arr xs => simp [graphqlExceptionCond] at hc
  · intro hc
    cases hd : parse e.message with
    | none => rfl
    | some v =>
        rw [hd] at hc
        cases v with
        | obj fs =>
            rw [wrapWriteError_obj]
            by_cases hn : alookup fs "name" = some (.str "GraphQL2Exception")
            · rw [if_pos hn]
              cases hm : alookup fs "message" with
              | none => rfl
              | some m =>
                  have hf : jsTruthy m = false := by
                    by_contra hft
                    rw [Bool.not_eq_false] at hft
                    have hTrue : graphqlExceptionCond
                        (some (JsonValue.obj fs)) = true := by
                      simp [graphqlExceptionCond, hn, hm, hft]
                    rw [hTrue] at hc
                    cases hc
                  show (if jsTruthy m = true then
                      "GraphQL error writing modules:\n" ++ jsToString m
                    else "Error writing modules:\n" ++ jsErrorString e) =
                    "Error writing modules:\n" ++ jsErrorString e
                  rw [hf]
                  simp
            · rw [if_neg hn]
        | null => rfl
        | bool b => rfl
        | num n => rfl
        | str s => rfl
        | arr xs => rfl

/-- Witness for claim C10's amended theorem: a phase failing with a plain
error is re-thrown with the 'Error writing modules:' prefix. -/
theorem writeAll_error_wrapping_witness :
    (Except.error ⟨"boom", none⟩ :
      Except JsError (List (String × Nat))) = Except.error ⟨"boom", none⟩ ∧
    graphqlExceptionCond ((fun _ => none) "boom") = false ∧
    wrapWriteError ((fun _ => none) "boom") ⟨"boom", none⟩ =
      "Error writing modules:\n" ++ jsErrorString ⟨"boom", none⟩ :=
  ⟨rfl, rfl,
    (writeAll_error_wrapping (Except.error ⟨"boom", none⟩) (fun _ => none)
      ⟨"boom", none⟩ rfl).2.2 rfl⟩

/-! ## Round-trip support: association list and sorting lemmas (claim C1) -/

theorem alookup_append {K V : Type} [DecidableEq K] (xs ys : List (K × V))
    (k : K) :
    alookup (xs ++ ys) k =
      match alookup xs k with
      | some v => some v
      | none => alookup ys k := by
  induction xs with
  | nil => rfl
  | cons p t ih =>
      obtain ⟨k0, v0⟩ := p
      by_cases h : k0 = k
      · subst h
        rw [List.cons_append, alookup_cons_self, alookup_cons_self]
      · rw [List.cons_append, alookup_cons_ne _ _ _ _ h,
          alookup_cons_ne _ _ _ _ h, ih]

theorem alookup_extract {K V : Type} [DecidableEq K] (l : List (K × V))
    (k : K) (v : V) (h : alookup l k = some v) :
    ∃ pre post, l = pre ++ (k, v) :: post ∧ k ∉ pre.map Prod.fst := by
  induction l with
  | nil => cases h
  | cons p t ih =>
      obtain ⟨k0, v0⟩ := p
      by_cases hk : k0 = k
      · subst hk
        rw [alookup_cons_self] at h
        injection h with h
        subst h
        exact ⟨[], t, rfl, by simp⟩
      · rw [alookup_cons_ne _ _ _ _ hk] at h
        obtain ⟨pre, post, heq, hpre⟩ := ih h
        refine ⟨(k0, v0) :: pre, post, by rw [heq]; rfl, ?_⟩
        simp only [List.map_cons, List.mem_cons]
        push_neg
        exact ⟨fun e => hk e.symm, hpre⟩

theorem perm_of_alookup_eq {K V : Type} [DecidableEq K] :
    ∀ (l1 l2 : List (K × V)), (l1.map Prod.fst).Nodup →
      (l2.map Prod.fst).Nodup → (∀ k, alookup l1 k = alookup l2 k) →
      l1.Perm l2 := by
  intro l1
  induction l1 with
  | nil =>
      intro l2 _ _ h
      cases l2 with
      | nil => exact List.Perm.refl []
      | cons p t =>
          obtain ⟨k0, v0⟩ := p
          have := h k0
          rw [alookup_cons_self] at this
          cases this
  | cons p t ih =>
      intro l2 hnd1 hnd2 h
      obtain ⟨k0, v0⟩ := p
      have hl2 : alookup l2 k0 = some v0 := by
        rw [← h k0, alookup_cons_self]
      obtain ⟨pre, post, heq, hpre⟩ := alookup_extract l2 k0 v0 hl2
      subst heq
      simp only [List.map_cons, List.nodup_cons] at hnd1
      have hnd2' : ((pre ++ post).map Prod.fst).Nodup ∧
          k0 ∉ (pre ++ post).map Prod.fst := by
        rw [List.map_append] at hnd2 ⊢
        rw [List.map_cons] at hnd2
        have hmid := List.nodup_middle.mp hnd2
        have := List.nodup_cons.mp hmid
        exact ⟨this.2, this.1⟩
      have hrest : ∀ k, alookup t k = alookup (pre ++ post) k := by
        intro k
        by_cases hk : k = k0
        · subst hk
          rw [alookup_eq_none_of_not_mem t k hnd1.1,
            alookup_eq_none_of_not_mem _ k hnd2'.2]
        · have := h k
          rw [alookup_cons_ne _ _ _ _ (fun e => hk e.symm)] at this
          rw [this, alookup_append, alookup_append]
          cases alookup pre k with
          | some v => rfl
          | none => rw [alookup_cons_ne _ _ _ _ (fun e => hk e.symm)]
      have hperm := ih (pre ++ post) hnd1.2 hnd2'.1 hrest
      exact (List.Perm.cons _ hperm).trans List.perm_middle.symm

theorem strListLe_total : ∀ a b : List Char,
    strListLe a b = true ∨ strListLe b a = true := by
  intro a
  induction a with
  | nil => intro b; left; rfl
  | cons c t ih =>
      intro b
      cases b with
      | nil => right; rfl
      | cons c2 t2 =>
          by_cases h1 : c.toNat < c2.toNat
          · left
            simp [strListLe, h1]
          · by_cases h2 : c2.toNat < c.toNat
            · right
              simp [strListLe, h2]
            · rcases ih t2 with h | h
              · left
                simp [strListLe, h1, h2, h]
              · right
                simp [strListLe, h1, h2, h]

theorem strListLe_antisymm : ∀ a b : List Char,
    strListLe a b = true → strListLe b a = true → a = b := by
  intro a
  induction a with
  | nil =>
      intro b _ h2
      cases b with
      | nil => rfl
      | cons c2 t2 => simp [strListLe] at h2
  | cons c t ih =>
      intro b h1 h2
      cases b with
      | nil => simp [strListLe] at h1
      | cons c2 t2 =>
          simp only [strListLe] at h1 h2
          by_cases hlt : c.toNat < c2.toNat
          · rw [if_neg (by omega), if_pos hlt] at h2
            cases h2
          · by_cases hgt : c2.toNat < c.toNat
            · rw [if_neg hlt, if_pos hgt] at h1
              cases h1
            · have hn : c.toNat = c2.toNat := by omega
              have hc : c = c2 := Char.ext (UInt32.ext hn)
              subst hc
              rw [if_neg hlt, if_neg hgt] at h1
              rw [if_neg hgt, if_neg hlt] at h2
              rw [ih t2 h1 h2]

theorem strListLe_trans : ∀ a b c : List Char,
    strListLe a b = true → strListLe b c = true → strListLe a c = true := by
  intro a
  induction a with
  | nil => intro b c _ _; rfl
  | cons x t ih =>
      intro b c h1 h2
      cases b with
      | nil => simp [strListLe] at h1
      | cons y t2 =>
          cases c with
          | nil => simp [strListLe] at h2
          | cons z t3 =>
              simp only [strListLe] at h1 h2 ⊢
              by_cases hxy : x.toNat < y.toNat
              · by_cases hyz : y.toNat < z.toNat
                · rw [if_pos (by omega)]
                · by_cases hzy : z.toNat < y.toNat
                  · rw [if_neg hyz, if_pos hzy] at h2
                    cases h2
                  · rw [if_pos (by omega)]
              · by_cases hyx : y.toNat < x.toNat
                · rw [if_neg hxy, if_pos hyx] at h1
                  cases h1
                · rw [if_neg hxy, if_neg hyx] at h1
                  by_cases hyz : y.toNat < z.toNat
                  · rw [if_pos (by omega)]
                  · by_cases hzy : z.toNat < y.toNat
                    · rw [if_neg hyz, if_pos hzy] at h2
                      cases h2
                    · rw [if_neg hyz, if_neg hzy] at h2
                      rw [if_neg (by omega), if_neg (by omega)]
                      exact ih t2 t3 h1 h2

theorem strLe_total (a b : String) : strLe a b = true ∨ strLe b a = true :=
  strListLe_total a.toList b.toList

theorem strLe_antisymm (a b : String) (h1 : strLe a b = true)
    (h2 : strLe b a = true) : a = b := by
  have h := strListLe_antisymm a.toList b.toList h1 h2
  cases a with
  | mk da =>
      cases b with
      | mk db =>
          simp only [String.toList] at h
          exact congrArg String.mk h

theorem strLe_trans (a b c : String) (h1 : strLe a b = true)
    (h2 : strLe b c = true) : strLe a c = true :=
  strListLe_trans a.toList b.toList c.toList h1 h2

theorem insertByKey_perm {V : Type} (p : String × V) (l : List (String × V)) :
    (insertByKey p l).Perm (p :: l) := by
  induction l with
  | nil => exact List.Perm.refl _
  | cons q t ih =>
      rw [insertByKey]
      by_cases h : strLe p.1 q.1 = true
      · rw [if_pos h]
      · rw [if_neg h]
        exact (List.Perm.cons q ih).trans (List.Perm.swap p q t)

theorem sortByKey_perm {V : Type} (l : List (String × V)) :
    (sortByKey l).Perm l := by
  induction l with
  | nil => exact List.Perm.refl _
  | cons p t ih =>
      rw [sortByKey]
      exact (insertByKey_perm p (sortByKey t)).trans (List.Perm.cons p ih)

theorem insertByKey_sorted {V : Type} (p : String × V) (l : List (String × V))
    (h : l.Pairwise (fun a b => strLe a.1 b.1 = true)) :
    (insertByKey p l).Pairwise (fun a b => strLe a.1 b.1 = true) := by
  induction l with
  | nil => simp [insertByKey]
  | cons q t ih =>
      obtain ⟨hq, ht⟩ := List.pairwise_cons.mp h
      rw [insertByKey]
      by_cases hpq : strLe p.1 q.1 = true
      · rw [if_pos hpq]
        refine List.pairwise_cons.mpr ⟨?_, h⟩
        intro x hx
        rcases List.mem_cons.mp hx with he | hxt
        · subst he; exact hpq
        · exact strLe_trans _ _ _ hpq (hq x hxt)
      · rw [if_neg hpq]
        refine List.pairwise_cons.mpr ⟨?_, ih ht⟩
        intro x hx
        have hx' : x ∈ p :: t := (insertByKey_perm p t).subset hx
        rcases List.mem_cons.mp hx' with he | hxt
        · rw [he]
          rcases strLe_total p.1 q.1 with hc | hc
          · exact absurd hc hpq
          · exact hc
        · exact hq x hxt

theorem sortByKey_sorted {V : Type} (l : List (String × V)) :
    (sortByKey l).Pairwise (fun a b => strLe a.1 b.1 = true) := by
  induction l with
  | nil => simp [sortByKey]
  | cons p t ih =>
      rw [sortByKey]
      exact insertByKey_sorted p (sortByKey t) ih

theorem eq_of_perm_sorted_nodup_keys {V : Type} :
    ∀ (l1 l2 : List (String × V)), l1.Perm l2 →
      l1.Pairwise (fun a b => strLe a.1 b.1 = true) →
      l2.Pairwise (fun a b => strLe a.1 b.1 = true) →
      (l1.map Prod.fst).Nodup → l1 = l2 := by
  intro l1
  induction l1 with
  | nil =>
      intro l2 hp _ _ _
      exact (hp.nil_eq).symm ▸ rfl
  | cons a t1 ih =>
      intro l2 hp hs1 hs2 hnd
      cases l2 with
      | nil => exact absurd hp.symm.nil_eq (by simp)
      | cons b t2 =>
          simp only [List.map_cons, List.nodup_cons] at hnd
          have hab : a = b := by
            have hbmem : b ∈ a :: t1 := hp.symm.subset (List.mem_cons_self b t2)
            rcases List.mem_cons.mp hbmem with he | hbt1
            · exact he.symm
            · have h1 : strLe a.1 b.1 = true :=
                (List.pairwise_cons.mp hs1).1 b hbt1
              have hamem : a ∈ b :: t2 := hp.subset (List.mem_cons_self a t1)
              rcases List.mem_cons.mp hamem with he | hat2
              · exact he
              · have h2 : strLe b.1 a.1 = true :=
                  (List.pairwise_cons.mp hs2).1 a hat2
                have hk : a.1 = b.1 := strLe_antisymm _ _ h1 h2
                exact absurd (hk ▸ List.mem_map_of_mem Prod.fst hbt1) hnd.1
          subst hab
          have htp : t1.Perm t2 := hp.cons_inv
          rw [ih t2 htp (List.pairwise_cons.mp hs1).2
            (List.pairwise_cons.mp hs2).2 hnd.2]

theorem canonFields_eq_map (l : List (String × JsonValue)) :
    JsonValue.canonFields l =
      l.map (fun p => (p.1, JsonValue.canonicalize p.2)) := by
  induction l with
  | nil => rfl
  | cons p t ih =>
      obtain ⟨k, v⟩ := p
      rw [JsonValue.canonFields, ih]
      rfl

theorem canonList_eq_map (l : List JsonValue) :
    JsonValue.canonList l = l.map JsonValue.canonicalize := by
  induction l with
  | nil => rfl
  | cons x t ih => rw [JsonValue.canonList, ih]; rfl

theorem alookup_map_val {K V W : Type} [DecidableEq K] (f : V → W)
    (l : List (K × V)) (k : K) :
    alookup (l.map (fun p => (p.1, f p.2))) k = (alookup l k).map f := by
  induction l with
  | nil => rfl
  | cons p t ih =>
      obtain ⟨k0, v0⟩ := p
      by_cases h : k0 = k
      · subst h
        simp only [List.map_cons]
        rw [alookup_cons_self, alookup_cons_self]
        rfl
      · simp only [List.map_cons]
        rw [alookup_cons_ne _ _ _ _ h, alookup_cons_ne _ _ _ _ h, ih]

theorem canonical_obj_eq (d cf : List (String × JsonValue))
    (hd : (d.map Prod.fst).Nodup) (hcf : (cf.map Prod.fst).Nodup)
    (h : ∀ k, (alookup d k).map JsonValue.canonicalize =
      (alookup cf k).map JsonValue.canonicalize) :
    JsonValue.canonicalize (.obj d) = JsonValue.canonicalize (.obj cf) := by
  have hkeys : ∀ (l : List (String × JsonValue)),
      ((l.map (fun p => (p.1, JsonValue.canonicalize p.2))).map Prod.fst) =
        l.map Prod.fst := by
    intro l
    rw [List.map_map]
    rfl
  rw [JsonValue.canonicalize, JsonValue.canonicalize]
  congr 1
  have hperm : (JsonValue.canonFields d).Perm (JsonValue.canonFields cf) := by
    rw [canonFields_eq_map, canonFields_eq_map]
    apply perm_of_alookup_eq
    · rw [hkeys]; exact hd
    · rw [hkeys]; exact hcf
    · intro k
      rw [alookup_map_val, alookup_map_val]
      exact h k
  apply eq_of_perm_sorted_nodup_keys
  · exact (sortByKey_perm _).trans (hperm.trans (sortByKey_perm _).symm)
  · exact sortByKey_sorted _
  · exact sortByKey_sorted _
  · have hnd : ((JsonValue.canonFields d).map Prod.fst).Nodup := by
      rw [canonFields_eq_map, hkeys]; exact hd
    exact (((sortByKey_perm (JsonValue.canonFields d)).map
      Prod.fst).nodup_iff).mpr hnd

theorem mergeData_nil (d1 : List (String × JsonValue)) :
    mergeData d1 [] = d1 := rfl

theorem mergeData_cons (d1 : List (String × JsonValue))
    (p : String × JsonValue) (t : List (String × JsonValue)) :
    mergeData d1 (p :: t) = mergeData (aset d1 p.1 p.2) t := rfl

theorem alookup_mergeData_not_mem (d1 d2 : List (String × JsonValue))
    (k : String) (h : k ∉ d2.map Prod.fst) :
    alookup (mergeData d1 d2) k = alookup d1 k := by
  induction d2 generalizing d1 with
  | nil => rfl
  | cons p t ih =>
      simp only [List.map_cons, List.mem_cons] at h
      push_neg at h
      rw [mergeData_cons, ih _ h.2, alookup_aset_ne _ _ _ _ h.1]

theorem alookup_mergeData_of_nodup (d1 d2 : List (String × JsonValue))
    (k : String) (v : JsonValue) (hnd : (d2.map Prod.fst).Nodup)
    (h : alookup d2 k = some v) :
    alookup (mergeData d1 d2) k = some v := by
  induction d2 generalizing d1 with
  | nil => cases h
  | cons p t ih =>
      obtain ⟨k0, v0⟩ := p
      simp only [List.map_cons, List.nodup_cons] at hnd
      by_cases hk : k0 = k
      · subst hk
        rw [alookup_cons_self] at h
        injection h with h
        subst h
        rw [mergeData_cons, alookup_mergeData_not_mem _ _ _ hnd.1,
          alookup_aset_self]
      · rw [alookup_cons_ne _ _ _ _ hk] at h
        rw [mergeData_cons]
        exact ih _ hnd.2 h

theorem alookup_mergeData_none (d1 d2 : List (String × JsonValue))
    (k : String) (h1 : alookup d1 k = none) (h2 : alookup d2 k = none) :
    alookup (mergeData d1 d2) k = none := by
  have hk : k ∉ d2.map Prod.fst := by
    intro hmem
    have := alookup_isSome_of_mem_keys d2 k hmem
    rw [h2] at this
    cases this
  rw [alookup_mergeData_not_mem _ _ _ hk, h1]

theorem mergeData_keys_nodup (d1 d2 : List (String × JsonValue))
    (h : (d1.map Prod.fst).Nodup) :
    ((mergeData d1 d2).map Prod.fst).Nodup := by
  induction d2 generalizing d1 with
  | nil => exact h
  | cons p t ih =>
      rw [mergeData_cons]
      exact ih _ (aset_keys_nodup _ _ _ h)

theorem mem_keys_of_alookup_some {K V : Type} [DecidableEq K]
    (l : List (K × V)) (k : K) (v : V) (h : alookup l k = some v) :
    k ∈ l.map Prod.fst := by
  induction l with
  | nil => cases h
  | cons p t ih =>
      obtain ⟨k0, v0⟩ := p
      by_cases hk : k0 = k
      · subst hk
        exact List.mem_cons_self _ _
      · rw [alookup_cons_ne _ _ _ _ hk] at h
        exact List.mem_cons_of_mem _ (ih h)

theorem activeRespKeys_cons (vars : Variables) (s : Selection)
    (rest : List Selection) :
    activeRespKeys vars (s :: rest) =
      activeRespKeys vars [s] ++ activeRespKeys vars rest := by
  cases s with
  | scalarField n al args => simp [activeRespKeys]
  | linkedField n al args sels => simp [activeRespKeys]
  | pluralLinkedField n al args sels => simp [activeRespKeys]
  | condition pv vn sels => simp [activeRespKeys]

/-- A selection list with at least one active selection writes at least one
cell of the record it is normalized into, so that record exists afterwards. -/
theorem hasActive_write (vars : Variables) (i : DataID)
    (fields : List (String × JsonValue)) :
    ∀ l : List Selection, hasActive vars l = true →
      ∃ w ∈ normSels vars i fields l, w.id = i
  | [], h => by simp [hasActive] at h
  | .scalarField n al args :: rest, _ => by
      rw [normSels, normSel]
      cases hf : alookup fields (responseKey n al) with
      | none =>
          exact ⟨⟨i, getStorageKey n args vars, .undef⟩, by simp, rfl⟩
      | some v =>
          exact ⟨⟨i, getStorageKey n args vars, .scalar v⟩, by simp, rfl⟩
  | .linkedField n al args sels :: rest, _ => by
      rw [normSels, normSel]
      cases hf : alookup fields (responseKey n al) with
      | none => exact ⟨⟨i, getStorageKey n args vars, .undef⟩, by simp, rfl⟩
      | some v =>
          cases v with
          | null =>
              exact ⟨⟨i, getStorageKey n args vars, .scalar .null⟩, by simp, rfl⟩
          | obj cfields =>
              refine ⟨⟨i, getStorageKey n args vars,
                .ref (childID cfields i (getStorageKey n args vars))⟩, ?_, rfl⟩
              simp
          | bool b => exact ⟨⟨i, getStorageKey n args vars, .undef⟩, by simp, rfl⟩
          | num m => exact ⟨⟨i, getStorageKey n args vars, .undef⟩, by simp, rfl⟩
          | str s => exact ⟨⟨i, getStorageKey n args vars, .undef⟩, by simp, rfl⟩
          | arr xs => exact ⟨⟨i, getStorageKey n args vars, .undef⟩, by simp, rfl⟩
  | .pluralLinkedField n al args sels :: rest, _ => by
      rw [normSels, normSel]
      cases hf : alookup fields (responseKey n al) with
      | none => exact ⟨⟨i, getStorageKey n args vars, .undef⟩, by simp, rfl⟩
      | some v =>
          cases v with
          | null =>
              exact ⟨⟨i, getStorageKey n args vars, .scalar .null⟩, by simp, rfl⟩
          | arr elems =>
              refine ⟨⟨i, getStorageKey n args vars,
                .refs (pluralIDs elems i (getStorageKey n args vars) 0)⟩, ?_, rfl⟩
              simp
          | bool b => exact ⟨⟨i, getStorageKey n args vars, .undef⟩, by simp, rfl⟩
          | num m => exact ⟨⟨i, getStorageKey n args vars, .undef⟩, by simp, rfl⟩
          | str s => exact ⟨⟨i, getStorageKey n args vars, .undef⟩, by simp, rfl⟩
          | obj fs => exact ⟨⟨i, getStorageKey n args vars, .undef⟩, by simp, rfl⟩
  | .condition pv vn sels :: rest, h => by
      rw [normSels, normSel]
      rw [hasActive] at h
      by_cases hcp : conditionPasses vars pv vn = true
      · by_cases hsa : hasActive vars sels = true
        · obtain ⟨w, hw, hwid⟩ := hasActive_write vars i fields sels hsa
          refine ⟨w, ?_, hwid⟩
          rw [if_pos hcp]
          exact List.mem_append.mpr (Or.inl hw)
        · have hr : hasActive vars rest = true := by
            simp [hcp, hsa] at h
            exact h
          obtain ⟨w, hw, hwid⟩ := hasActive_write vars i fields rest hr
          exact ⟨w, List.mem_append.mpr (Or.inr hw), hwid⟩
      · have hr : hasActive vars rest = true := by
          simp [hcp] at h
          exact h
        obtain ⟨w, hw, hwid⟩ := hasActive_write vars i fields rest hr
        exact ⟨w, List.mem_append.mpr (Or.inr hw), hwid⟩
termination_by l => sizeOf l

theorem getCell_of_record (T : RecordSource) (i : DataID) (r : Record)
    (k : String) (hrec : T.get i = some (some r)) :
    getCell T i k = alookup r k := by
  rw [getCell_def, hrec]

/-- A response key outside the active keys is absent from a shape-checked
response object (the coverage conjunct of `wsObj`). -/
theorem coverage_none (vars : Variables) (sels : List Selection)
    (cfields : List (String × JsonValue))
    (hall : cfields.all
      (fun p => (activeRespKeys vars sels).contains p.1) = true)
    (k : String) (hk : k ∉ activeRespKeys vars sels) :
    alookup cfields k = none := by
  cases hl : alookup cfields k with
  | none => rfl
  | some v =>
      exfalso
      have hmem := mem_keys_of_alookup_some cfields k v hl
      rw [List.mem_map] at hmem
      obtain ⟨p, hp, hpk⟩ := hmem
      have hc := List.all_eq_true.mp hall p hp
      rw [hpk] at hc
      exact hk (by simpa using hc)

/-- Combine the per-key read/response agreement into canonical equality of
the child object. -/
theorem child_obj_canon (T : RecordSource) (vars : Variables) (cr : Record)
    (sels : List Selection) (cfields : List (String × JsonValue))
    (hnd : (cfields.map Prod.fst).Nodup)
    (hall : cfields.all
      (fun p => (activeRespKeys vars sels).contains p.1) = true)
    (h1 : ∀ k, k ∉ activeRespKeys vars sels →
      alookup (readSels T vars cr sels).1 k = none)
    (h2 : ∀ k, k ∈ activeRespKeys vars sels →
      (alookup (readSels T vars cr sels).1 k).map JsonValue.canonicalize =
        (alookup cfields k).map JsonValue.canonicalize)
    (h3 : ((readSels T vars cr sels).1.map Prod.fst).Nodup) :
    JsonValue.canonicalize (.obj (readSels T vars cr sels).1) =
      JsonValue.canonicalize (.obj cfields) := by
  apply canonical_obj_eq _ _ h3 hnd
  intro k
  by_cases hk : k ∈ activeRespKeys vars sels
  · exact h2 k hk
  · rw [h1 k hk, coverage_none vars sels cfields hall k hk]

mutual
/-- Reading one selection of a consistently normalized response reproduces
the response fields it covers, up to canonicalization of the values. -/
theorem readNormSel (T : RecordSource) (WS : List NWrite) (vars : Variables)
    (i : DataID) (r : Record) (fields : List (String × JsonValue))
    (s : Selection)
    (hT : ∀ w ∈ WS, getCell T w.id w.key = some w.value)
    (hrec : T.get i = some (some r))
    (hsub : ∀ w ∈ normSel vars i fields s, w ∈ WS)
    (hws : wsSel vars fields s = true) :
    (∀ k, k ∉ activeRespKeys vars [s] →
        alookup (readSel T vars r s).1 k = none) ∧
    (∀ k, k ∈ activeRespKeys vars [s] →
        (alookup (readSel T vars r s).1 k).map JsonValue.canonicalize =
          (alookup fields k).map JsonValue.canonicalize) ∧
    ((readSel T vars r s).1.map Prod.fst).Nodup := by
  cases s with
  | scalarField n al args =>
      cases hf : alookup fields (responseKey n al) with
      | none =>
          have hw : (⟨i, getStorageKey n args vars, FieldValue.undef⟩ :
              NWrite) ∈ WS := hsub _ (by simp [normSel, hf])
          have hcell : getCell T i (getStorageKey n args vars) =
              some FieldValue.undef := hT _ hw
          rw [getCell_of_record T i r _ hrec] at hcell
          have hread : (readSel T vars r (.scalarField n al args)).1 = [] := by
            simp [readSel, hcell]
          refine ⟨?_, ?_, ?_⟩
          · intro k _
            rw [hread]
            rfl
          · intro k hk
            simp [activeRespKeys] at hk
            subst hk
            rw [hread, hf]
            rfl
          · rw [hread]
            simp
      | some v =>
          have hw : (⟨i, getStorageKey n args vars, FieldValue.scalar v⟩ :
              NWrite) ∈ WS := hsub _ (by simp [normSel, hf])
          have hcell : getCell T i (getStorageKey n args vars) =
              some (FieldValue.scalar v) := hT _ hw
          rw [getCell_of_record T i r _ hrec] at hcell
          have hread : (readSel T vars r (.scalarField n al args)).1 =
              [(responseKey n al, v)] := by
            simp [readSel, hcell]
          refine ⟨?_, ?_, ?_⟩
          · intro k hk
            simp [activeRespKeys] at hk
            rw [hread, alookup_cons_ne _ _ _ _ (fun e => hk e.symm)]
            rfl
          · intro k hk
            simp [activeRespKeys] at hk
            subst hk
            rw [hread, hf, alookup_cons_self]
          · rw [hread]
            simp
  | linkedField n al args sels =>
      cases hf : alookup fields (responseKey n al) with
      | none =>
          have hw : (⟨i, getStorageKey n args vars, FieldValue.undef⟩ :
              NWrite) ∈ WS := hsub _ (by simp [normSel, hf])
          have hcell : getCell T i (getStorageKey n args vars) =
              some FieldValue.undef := hT _ hw
          rw [getCell_of_record T i r _ hrec] at hcell
          have hread : (readSel T vars r (.linkedField n al args sels)).1 =
              [] := by
            simp [readSel, hcell]
          refine ⟨?_, ?_, ?_⟩
          · intro k _
            rw [hread]
            rfl
          · intro k hk
            simp [activeRespKeys] at hk
            subst hk
            rw [hread, hf]
            rfl
          · rw [hread]
            simp
      | some v =>
          cases v with
          | null =>
              have hw : (⟨i, getStorageKey n args vars,
                  FieldValue.scalar .null⟩ : NWrite) ∈ WS :=
                hsub _ (by simp [normSel, hf])
              have hcell : getCell T i (getStorageKey n args vars) =
                  some (FieldValue.scalar .null) := hT _ hw
              rw [getCell_of_record T i r _ hrec] at hcell
              have hread : (readSel T vars r
                  (.linkedField n al args sels)).1 =
                  [(responseKey n al, JsonValue.null)] := by
                simp [readSel, hcell]
              refine ⟨?_, ?_, ?_⟩
              · intro k hk
                simp [activeRespKeys] at hk
                rw [hread, alookup_cons_ne _ _ _ _ (fun e => hk e.symm)]
                rfl
              · intro k hk
                simp [activeRespKeys] at hk
                subst hk
                rw [hread, hf, alookup_cons_self]
              · rw [hread]
                simp
          | obj cfields =>
              have hw : (⟨i, getStorageKey n args vars,
                  FieldValue.ref
                    (childID cfields i (getStorageKey n args vars))⟩ :
                  NWrite) ∈ WS := hsub _ (by simp [normSel, hf])
              have hcell : getCell T i (getStorageKey n args vars) =
                  some (FieldValue.ref
                    (childID cfields i (getStorageKey n args vars))) :=
                hT _ hw
              rw [getCell_of_record T i r _ hrec] at hcell
              have hsubc : ∀ w ∈ normSels vars
                  (childID cfields i (getStorageKey n args vars))
                  cfields sels, w ∈ WS := by
                intro w hwm
                apply hsub
                simp [normSel, hf]
                exact Or.inr hwm
              have hws2 : hasActive vars sels = true ∧
                  wsObj vars cfields sels = true := by
                have := hws
                simp only [wsSel, hf, Bool.and_eq_true] at this
                exact this
              obtain ⟨hact, hobj⟩ := hws2
              obtain ⟨w0, hw0, hw0id⟩ := hasActive_write vars
                (childID cfields i (getStorageKey n args vars))
                cfields sels hact
              have hc0 := hT w0 (hsubc w0 hw0)
              have hsome : (getCell T w0.id w0.key).isSome := by
                rw [hc0]
                rfl
              obtain ⟨cr, hcr, _⟩ := getCell_isSome_elim T w0.id w0.key hsome
              rw [hw0id] at hcr
              rw [wsObj] at hobj
              simp only [Bool.and_eq_true, decide_eq_true_eq] at hobj
              obtain ⟨⟨hnd, hall⟩, hwsels⟩ := hobj
              obtain ⟨h1, h2, h3⟩ := readNormSels T WS vars
                (childID cfields i (getStorageKey n args vars)) cr cfields
                sels hT hcr hsubc hwsels
              have hchild := child_obj_canon T vars cr sels cfields hnd hall
                h1 h2 h3
              have hread : (readSel T vars r
                  (.linkedField n al args sels)).1 =
                  [(responseKey n al,
                    .obj (readSels T vars cr sels).1)] := by
                simp [readSel, hcell, hcr]
              refine ⟨?_, ?_, ?_⟩
              · intro k hk
                simp [activeRespKeys] at hk
                rw [hread, alookup_cons_ne _ _ _ _ (fun e => hk e.symm)]
                rfl
              · intro k hk
                simp [activeRespKeys] at hk
                subst hk
                rw [hread, hf, alookup_cons_self]
                show some (JsonValue.canonicalize
                    (.obj (readSels T vars cr sels).1)) =
                  some (JsonValue.canonicalize (.obj cfields))
                rw [hchild]
              · rw [hread]
                simp
          | bool b => simp [wsSel, hf] at hws
          | num m => simp [wsSel, hf] at hws
          | str s2 => simp [wsSel, hf] at hws
          | arr xs => simp [wsSel, hf] at hws
  | pluralLinkedField n al args sels =>
      cases hf : alookup fields (responseKey n al) with
      | none =>
          have hw : (⟨i, getStorageKey n args vars, FieldValue.undef⟩ :
              NWrite) ∈ WS := hsub _ (by simp [normSel, hf])
          have hcell : getCell T i (getStorageKey n args vars) =
              some FieldValue.undef := hT _ hw
          rw [getCell_of_record T i r _ hrec] at hcell
          have hread : (readSel T vars r
              (.pluralLinkedField n al args sels)).1 = [] := by
            simp [readSel, hcell]
          refine ⟨?_, ?_, ?_⟩
          · intro k _
            rw [hread]
            rfl
          · intro k hk
            simp [activeRespKeys] at hk
            subst hk
            rw [hread, hf]
            rfl
          · rw [hread]
            simp
      | some v =>
          cases v with
          | null =>
              have hw : (⟨i, getStorageKey n args vars,
                  FieldValue.scalar .null⟩ : NWrite) ∈ WS :=
                hsub _ (by simp [normSel, hf])
              have hcell : getCell T i (getStorageKey n args vars) =
                  some (FieldValue.scalar .null) := hT _ hw
              rw [getCell_of_record T i r _ hrec] at hcell
              have hread : (readSel T vars r
                  (.pluralLinkedField n al args sels)).1 =
                  [(responseKey n al, JsonValue.null)] := by
                simp [readSel, hcell]
              refine ⟨?_, ?_, ?_⟩
              · intro k hk
                simp [activeRespKeys] at hk
                rw [hread, alookup_cons_ne _ _ _ _ (fun e => hk e.symm)]
                rfl
              · intro k hk
                simp [activeRespKeys] at hk
                subst hk
                rw [hread, hf, alookup_cons_self]
              · rw [hread]
                simp
          | arr elems =>
              have hw : (⟨i, getStorageKey n args vars,
                  FieldValue.refs
                    (pluralIDs elems i (getStorageKey n args vars) 0)⟩ :
                  NWrite) ∈ WS := hsub _ (by simp [normSel, hf])
              have hcell : getCell T i (getStorageKey n args vars) =
                  some (FieldValue.refs
                    (pluralIDs elems i (getStorageKey n args vars) 0)) :=
                hT _ hw
              rw [getCell_of_record T i r _ hrec] at hcell
              have hsubp : ∀ w ∈ normPlural vars elems i
                  (getStorageKey n args vars) 0 sels, w ∈ WS := by
                intro w hwm
                apply hsub
                simp [normSel, hf]
                exact Or.inr hwm
              have hwse : wsElems vars elems sels = true := by
                simpa [wsSel, hf] using hws
              have ih := readNormElems T WS vars i
                (getStorageKey n args vars) sels elems 0 hT hsubp hwse
              have hread : (readSel T vars r
                  (.pluralLinkedField n al args sels)).1 =
                  [(responseKey n al,
                    .arr (readRefs T vars
                      (pluralIDs elems i (getStorageKey n args vars) 0)
                      sels).1)] := by
                simp [readSel, hcell]
              refine ⟨?_, ?_, ?_⟩
              · intro k hk
                simp [activeRespKeys] at hk
                rw [hread, alookup_cons_ne _ _ _ _ (fun e => hk e.symm)]
                rfl
              · intro k hk
                simp [activeRespKeys] at hk
                subst hk
                rw [hread, hf, alookup_cons_self]
                show some (JsonValue.canonicalize
                    (.arr (readRefs T vars
                      (pluralIDs elems i (getStorageKey n args vars) 0)
                      sels).1)) =
                  some (JsonValue.canonicalize (.arr elems))
                rw [JsonValue.canonicalize, JsonValue.canonicalize,
                  canonList_eq_map, canonList_eq_map, ih]
              · rw [hread]
                simp
          | bool b => simp [wsSel, hf] at hws
          | num m => simp [wsSel, hf] at hws
          | str s2 => simp [wsSel, hf] at hws
          | obj fs => simp [wsSel, hf] at hws
  | condition pv vn sels =>
      by_cases hcp : conditionPasses vars pv vn = true
      · have hsub' : ∀ w ∈ normSels vars i fields sels, w ∈ WS := by
          intro w hwm
          apply hsub
          simp [normSel, hcp]
          exact hwm
        have hws' : wsSels vars fields sels = true := by
          simpa [wsSel, hcp] using hws
        obtain ⟨h1, h2, h3⟩ := readNormSels T WS vars i r fields sels hT
          hrec hsub' hws'
        have hread : readSel T vars r (.condition pv vn sels) =
            readSels T vars r sels := by
          simp [readSel, hcp]
        have hkeys : activeRespKeys vars [.condition pv vn sels] =
            activeRespKeys vars sels := by
          simp [activeRespKeys, hcp]
        rw [hread, hkeys]
        exact ⟨h1, h2, h3⟩
      · have hread : (readSel T vars r (.condition pv vn sels)).1 = [] := by
          simp [readSel, hcp]
        have hkeys : activeRespKeys vars [.condition pv vn sels] = [] := by
          simp [activeRespKeys, hcp]
        refine ⟨?_, ?_, ?_⟩
        · intro k _
          rw [hread]
          rfl
        · intro k hk
          rw [hkeys] at hk
          cases hk
        · rw [hread]
          simp
termination_by (sizeOf s, 0, 0)

/-- Reading a selection list of a consistently normalized response
reproduces the response fields it covers, up to canonicalization. -/
theorem readNormSels (T : RecordSource) (WS : List NWrite)
    (vars : Variables) (i : DataID) (r : Record)
    (fields : List (String × JsonValue)) (l : List Selection)
    (hT : ∀ w ∈ WS, getCell T w.id w.key = some w.value)
    (hrec : T.get i = some (some r))
    (hsub : ∀ w ∈ normSels vars i fields l, w ∈ WS)
    (hws : wsSels vars fields l = true) :
    (∀ k, k ∉ activeRespKeys vars l →
        alookup (readSels T vars r l).1 k = none) ∧
    (∀ k, k ∈ activeRespKeys vars l →
        (alookup (readSels T vars r l).1 k).map JsonValue.canonicalize =
          (alookup fields k).map JsonValue.canonicalize) ∧
    ((readSels T vars r l).1.map Prod.fst).Nodup := by
  cases l with
  | nil =>
      refine ⟨?_, ?_, ?_⟩
      · intro k _
        simp [readSels, alookup]
      · intro k hk
        simp [activeRespKeys] at hk
      · simp [readSels]
  | cons s rest =>
      have hsub1 : ∀ w ∈ normSel vars i fields s, w ∈ WS := by
        intro w hw
        apply hsub
        rw [normSels]
        exact List.mem_append.mpr (Or.inl hw)
      have hsub2 : ∀ w ∈ normSels vars i fields rest, w ∈ WS := by
        intro w hw
        apply hsub
        rw [normSels]
        exact List.mem_append.mpr (Or.inr hw)
      have hws' : wsSel vars fields s = true ∧
          wsSels vars fields rest = true := by
        have h := hws
        rw [wsSels] at h
        simp only [Bool.and_eq_true] at h
        exact h
      obtain ⟨ha1, ha2, ha3⟩ := readNormSel T WS vars i r fields s hT hrec
        hsub1 hws'.1
      obtain ⟨hb1, hb2, hb3⟩ := readNormSels T WS vars i r fields rest hT
        hrec hsub2 hws'.2
      have hdata : (readSels T vars r (s :: rest)).1 =
          mergeData (readSel T vars r s).1 (readSels T vars r rest).1 := by
        simp [readSels]
      refine ⟨?_, ?_, ?_⟩
      · intro k hk
        rw [activeRespKeys_cons] at hk
        simp only [List.mem_append] at hk
        push_neg at hk
        rw [hdata]
        exact alookup_mergeData_none _ _ _ (ha1 k hk.1) (hb1 k hk.2)
      · intro k hk
        rw [activeRespKeys_cons] at hk
        rw [hdata]
        by_cases hk2 : k ∈ activeRespKeys vars rest
        · cases hbl : alookup (readSels T vars r rest).1 k with
          | some v =>
              rw [alookup_mergeData_of_nodup _ _ _ v hb3 hbl, ← hbl]
              exact hb2 k hk2
          | none =>
              have hknotb : k ∉ (readSels T vars r rest).1.map Prod.fst := by
                intro hm
                have hs := alookup_isSome_of_mem_keys _ k hm
                rw [hbl] at hs
                cases hs
              rw [alookup_mergeData_not_mem _ _ _ hknotb]
              have hf0 : (alookup fields k).map JsonValue.canonicalize =
                  none := by
                rw [← hb2 k hk2, hbl]
                rfl
              rw [hf0]
              by_cases hk1 : k ∈ activeRespKeys vars [s]
              · rw [ha2 k hk1]
                exact hf0
              · rw [ha1 k hk1]
                rfl
        · have hk1 : k ∈ activeRespKeys vars [s] := by
            rcases List.mem_append.mp hk with h | h
            · exact h
            · exact absurd h hk2
          have hbl : alookup (readSels T vars r rest).1 k = none :=
            hb1 k hk2
          have hknotb : k ∉ (readSels T vars r rest).1.map Prod.fst := by
            intro hm
            have hs := alookup_isSome_of_mem_keys _ k hm
            rw [hbl] at hs
            cases hs
          rw [alookup_mergeData_not_mem _ _ _ hknotb]
          exact ha2 k hk1
      · rw [hdata]
        exact mergeData_keys_nodup _ _ ha3
termination_by (sizeOf l, 0, 0)

/-- Reading the elements of a consistently normalized plural linked field
reproduces the response elements, up to canonicalization. -/
theorem readNormElems (T : RecordSource) (WS : List NWrite)
    (vars : Variables) (pid : DataID) (key : String)
    (sels : List Selection) (elems : List JsonValue) (idx : Nat)
    (hT : ∀ w ∈ WS, getCell T w.id w.key = some w.value)
    (hsub : ∀ w ∈ normPlural vars elems pid key idx sels, w ∈ WS)
    (hws : wsElems vars elems sels = true) :
    (readRefs T vars (pluralIDs elems pid key idx) sels).1.map
        JsonValue.canonicalize = elems.map JsonValue.canonicalize := by
  cases elems with
  | nil => simp [pluralIDs, readRefs]
  | cons e rest =>
      cases e with
      | null =>
          have hsub' : ∀ w ∈ normPlural vars rest pid key (idx + 1) sels,
              w ∈ WS := by
            intro w hw
            apply hsub
            simp [normPlural]
            exact hw
          have hwse : wsElems vars rest sels = true := by
            simpa [wsElems] using hws
          have ih := readNormElems T WS vars pid key sels rest (idx + 1)
            hT hsub' hwse
          have hread : (readRefs T vars
              (pluralIDs (JsonValue.null :: rest) pid key idx) sels).1 =
              .null :: (readRefs T vars
                (pluralIDs rest pid key (idx + 1)) sels).1 := by
            simp [pluralIDs, readRefs]
          rw [hread, List.map_cons, List.map_cons, ih]
      | obj cfields =>
          have hsubc : ∀ w ∈ normSels vars
              (pluralChildID cfields pid key idx) cfields sels, w ∈ WS := by
            intro w hw
            apply hsub
            simp [normPlural]
            exact Or.inl hw
          have hsubr : ∀ w ∈ normPlural vars rest pid key (idx + 1) sels,
              w ∈ WS := by
            intro w hw
            apply hsub
            simp [normPlural]
            exact Or.inr hw
          have hws3 : hasActive vars sels = true ∧
              wsObj vars cfields sels = true ∧
              wsElems vars rest sels = true := by
            simpa [wsElems, Bool.and_eq_true, and_assoc] using hws
          obtain ⟨hact, hobj, hwsr⟩ := hws3
          obtain ⟨w0, hw0, hw0id⟩ := hasActive_write vars
            (pluralChildID cfields pid key idx) cfields sels hact
          have hc0 := hT w0 (hsubc w0 hw0)
          have hsome : (getCell T w0.id w0.key).isSome := by
            rw [hc0]
            rfl
          obtain ⟨cr, hcr, _⟩ := getCell_isSome_elim T w0.id w0.key hsome
          rw [hw0id] at hcr
          rw [wsObj] at hobj
          simp only [Bool.and_eq_true, decide_eq_true_eq] at hobj
          obtain ⟨⟨hnd, hall⟩, hwsels⟩ := hobj
          obtain ⟨h1, h2, h3⟩ := readNormSels T WS vars
            (pluralChildID cfields pid key idx) cr cfields sels hT hcr
            hsubc hwsels
          have hchild := child_obj_canon T vars cr sels cfields hnd hall
            h1 h2 h3
          have ih := readNormElems T WS vars pid key sels rest (idx + 1)
            hT hsubr hwsr
          have hread : (readRefs T vars
              (pluralIDs (JsonValue.obj cfields :: rest) pid key idx)
              sels).1 =
              .obj (readSels T vars cr sels).1 :: (readRefs T vars
                (pluralIDs rest pid key (idx + 1)) sels).1 := by
            simp [pluralIDs, readRefs, hcr]
          rw [hread, List.map_cons, List.map_cons, hchild, ih]
      | bool b => simp [wsElems] at hws
      | num m => simp [wsElems] at hws
      | str s2 => simp [wsElems] at hws
      | arr xs => simp [wsElems] at hws
termination_by (sizeOf sels, 1, elems.length)
end

/-- Claim C1: Round-trip of write then read (amended).  The claim is false
as universally stated (see the counterexample: a response whose aliased
branches normalize into the same DataID with conflicting field values is
read back with the conflict resolved, not as the original response).  It
holds for every well-shaped response whose normalization writes are
conflict-free and whose selector selects at least one active field: reading
the selector back from a fresh source normalized with the response yields
data that is equal to the response up to field ordering (canonical JSON
equality; explicit nulls are preserved by the model's reader). -/
theorem normalize_read_roundtrip (sel : Selector)
    (resp : List (String × JsonValue))
    (hact : hasActive sel.vars sel.node = true)
    (hws : wellShaped sel resp = true)
    (hcons : consistentW (normSels sel.vars sel.dataID resp sel.node)) :
    ∃ d, (readSelector (normalizeResponse RecordSource.empty sel resp)
          sel).data = some d ∧
        JsonValue.canonicalize (.obj d) =
          JsonValue.canonicalize (.obj resp) := by
  have hT : ∀ w ∈ normSels sel.vars sel.dataID resp sel.node,
      getCell (normalizeResponse RecordSource.empty sel resp) w.id w.key =
        some w.value := by
    intro w hw
    exact getCell_of_mem_consistent _ RecordSource.empty w hw hcons
  obtain ⟨w0, hw0, hw0id⟩ := hasActive_write sel.vars sel.dataID resp
    sel.node hact
  have hc0 := hT w0 hw0
  have hsome : (getCell (normalizeResponse RecordSource.empty sel resp)
      w0.id w0.key).isSome := by
    rw [hc0]
    rfl
  obtain ⟨r, hr, _⟩ := getCell_isSome_elim _ w0.id w0.key hsome
  rw [hw0id] at hr
  have hobj := hws
  simp only [wellShaped] at hobj
  rw [wsObj] at hobj
  simp only [Bool.and_eq_true, decide_eq_true_eq] at hobj
  obtain ⟨⟨hnd, hall⟩, hwsels⟩ := hobj
  obtain ⟨h1, h2, h3⟩ := readNormSels
    (normalizeResponse RecordSource.empty sel resp)
    (normSels sel.vars sel.dataID resp sel.node) sel.vars sel.dataID r
    resp sel.node hT hr (fun w hw => hw) hwsels
  refine ⟨(readSels (normalizeResponse RecordSource.empty sel resp)
    sel.vars r sel.node).1, ?_, ?_⟩
  · simp [readSelector, hr]
  · exact child_obj_canon _ sel.vars r sel.node resp hnd hall h1 h2 h3

/-- Two sibling linked fields whose child objects normalize to the same
DataID ("1") but disagree on scalar `x`: the round-trip loses the first
value. -/
def aliasedSel : Selector :=
  ⟨"r",
    [.linkedField "a" none []
        [.scalarField "id" none [], .scalarField "x" none []],
      .linkedField "b" none []
        [.scalarField "id" none [], .scalarField "x" none []]], []⟩

/-- The aliased response: both branches carry id "1", with `x` 1 and 2. -/
def aliasedResp : List (String × JsonValue) :=
  [("a", .obj [("id", .str "1"), ("x", .num 1)]),
   ("b", .obj [("id", .str "1"), ("x", .num 2)])]

/-- Claim C1 counterexample: the round-trip fails as universally stated.
`aliasedResp` is well shaped for `aliasedSel`, yet both its branches
normalize into record "1", the conflicting writes to `x` resolve
last-write-wins, and reading the selector back returns `x = 2` under both
branches — not the original response (even up to field ordering and
explicit nulls). -/
theorem normalize_read_roundtrip_counterexample :
    wellShaped aliasedSel aliasedResp = true ∧
    (readSelector (normalizeResponse RecordSource.empty aliasedSel
        aliasedResp) aliasedSel).data.map
        (fun d => JsonValue.canonicalize (.obj d)) ≠
      some (JsonValue.canonicalize (.obj aliasedResp)) := by
  have hn : normSels aliasedSel.vars aliasedSel.dataID aliasedResp
      aliasedSel.node =
      [⟨"r", "a", .ref "1"⟩, ⟨"1", "id", .scalar (.str "1")⟩,
       ⟨"1", "x", .scalar (.num 1)⟩, ⟨"r", "b", .ref "1"⟩,
       ⟨"1", "id", .scalar (.str "1")⟩, ⟨"1", "x", .scalar (.num 2)⟩] := by
    simp [aliasedSel, aliasedResp, normSels, normSel, responseKey, alookup,
      getStorageKey, childID, resolveArg, sortByKey]
  have hsrc : normalizeResponse RecordSource.empty aliasedSel aliasedResp =
      ⟨[("r", some [("a", .ref "1"), ("b", .ref "1")]),
        ("1", some [("id", .scalar (.str "1")),
          ("x", .scalar (.num 2))])]⟩ := by
    simp only [normalizeResponse]
    rw [hn]
    rfl
  constructor
  · simp [wellShaped, aliasedSel, aliasedResp, wsObj, wsSels, wsSel,
      hasActive, activeRespKeys, responseKey, alookup]
  · have hread : (readSelector (normalizeResponse RecordSource.empty
        aliasedSel aliasedResp) aliasedSel).data =
        some [("a", .obj [("id", .str "1"), ("x", .num 2)]),
          ("b", .obj [("id", .str "1"), ("x", .num 2)])] := by
      rw [hsrc]
      simp [readSelector, RecordSource.get, alookup, aliasedSel, readSels,
        readSel, responseKey, getStorageKey, mergeData, aset, sortByKey]
    rw [hread]
    simp only [Option.map_some']
    simp [aliasedResp]
    decide

theorem normalize_read_roundtrip_witness :
    ∃ d, (readSelector (normalizeResponse RecordSource.empty
          ⟨"client:root",
            [.linkedField "user" none [⟨"id", .lit (.str "4")⟩]
              [.scalarField "id" none [], .scalarField "name" none []]],
            []⟩
          [("user", .obj [("id", .str "4"), ("name", .str "Zuck")])])
        ⟨"client:root",
          [.linkedField "user" none [⟨"id", .lit (.str "4")⟩]
            [.scalarField "id" none [], .scalarField "name" none []]],
          []⟩).data = some d ∧
      JsonValue.canonicalize (.obj d) =
        JsonValue.canonicalize (.obj
          [("user", .obj [("id", .str "4"), ("name", .str "Zuck")])]) :=
  normalize_read_roundtrip
    ⟨"client:root",
      [.linkedField "user" none [⟨"id", .lit (.str "4")⟩]
        [.scalarField "id" none [], .scalarField "name" none []]], []⟩
    [("user", .obj [("id", .str "4"), ("name", .str "Zuck")])]
    (by simp [hasActive])
    (by simp [wellShaped, wsObj, wsSels, wsSel, hasActive, activeRespKeys,
      responseKey, alookup])
    (by
      have hn : normSels
          (⟨"client:root",
            [.linkedField "user" none [⟨"id", .lit (.str "4")⟩]
              [.scalarField "id" none [], .scalarField "name" none []]],
            []⟩ : Selector).vars
          (⟨"client:root",
            [.linkedField "user" none [⟨"id", .lit (.str "4")⟩]
              [.scalarField "id" none [], .scalarField "name" none []]],
            []⟩ : Selector).dataID
          [("user", JsonValue.obj [("id", .str "4"), ("name", .str "Zuck")])]
          (⟨"client:root",
            [.linkedField "user" none [⟨"id", .lit (.str "4")⟩]
              [.scalarField "id" none [], .scalarField "name" none []]],
            []⟩ : Selector).node =
          [⟨"client:root", "user(id:\"4\")", .ref "4"⟩,
           ⟨"4", "id", .scalar (.str "4")⟩,
           ⟨"4", "name", .scalar (.str "Zuck")⟩] := by
        simp [normSels, normSel, responseKey, alookup, childID,
          getStorageKey, resolveArg, sortByKey, insertByKey,
          JsonValue.serialize, JsonValue.printVal, JsonValue.canonicalize,
          jsonQuote, jsonEscapeChar, String.intercalate]
        decide
      rw [hn]
      decide)
